import Mathlib

/-!
Verification development for the fire-diff-cli dependency-impact engine.

The TypeScript sources are shallowly embedded: pure helpers become Lean
functions over `String`/`List Char`; the stateful recursive analyzer becomes
explicit state passing with a fuel parameter; file-system and TypeScript-AST
access (reading a file, extracting module specifiers / export declarations /
top-level entities from a parsed source file) are environment parameters, as
they are calls into `fs` and the `typescript` package.  Paths are modelled as
project-root-relative POSIX strings; `path.join`/`path.resolve` against the
project root become normalized concatenation.
-/

set_option maxRecDepth 10000

namespace FireDiff

/-- JS `\s` (ASCII fragment): space, tab, newline, carriage return, vertical
tab, form feed. -/
def isWsChar (c : Char) : Bool :=
  c = ' ' || c = '\t' || c = '\n' || c = '\r' ||
  c = Char.ofNat 11 || c = Char.ofNat 12

/-- JS `\w`: ASCII letters, digits and underscore. -/
def isWordChar (c : Char) : Bool :=
  ('a' ≤ c && c ≤ 'z') || ('A' ≤ c && c ≤ 'Z') || ('0' ≤ c && c ≤ '9') || c = '_'

/-- Left brace character, written by code so the source file holds no brace
literal. -/
def lbraceChar : Char := Char.ofNat 123

/-- Drop leading JS whitespace (the `\s*` step of the trigger regexes). -/
def skipWs : List Char → List Char
  | [] => []
  | c :: cs => if isWsChar c then skipWs cs else c :: cs

/-- `stripPre pat cs` returns the remainder of `cs` after the literal prefix
`pat`, or `none` when `cs` does not start with `pat`. -/
def stripPre : List Char → List Char → Option (List Char)
  | [], cs => some cs
  | _ :: _, [] => none
  | p :: ps, c :: cs => if p = c then stripPre ps cs else none

/-- Does `cs` begin with the literal `pat`? -/
def hasPre (pat cs : List Char) : Bool := (stripPre pat cs).isSome

/-- JS `String.prototype.includes`: `pat` occurs as a contiguous substring of
`hay`. -/
def containsSub (hay pat : List Char) : Bool :=
  match hay with
  | [] => hasPre pat []
  | _ :: rest => hasPre pat hay || containsSub rest pat

/-- JS `String.prototype.trim` (ASCII whitespace). -/
def trimChars (cs : List Char) : List Char :=
  ((cs.dropWhile isWsChar).reverse.dropWhile isWsChar).reverse

/-- JS `content.substring(a, b)` for `a ≤ b` (the only way the sources call
it): characters of `s` from index `a` (inclusive) to `b` (exclusive), clamped
to the string. -/
def substrJs (s : String) (a b : Nat) : String :=
  (((s.data).drop a).take (b - a)).asString

/-- First index of character `c` in `cs` (JS `indexOf`), or `none`. -/
def charIndexOf (cs : List Char) (c : Char) : Option Nat :=
  match cs with
  | [] => none
  | x :: rest => if x = c then some 0 else (charIndexOf rest c).map (· + 1)

/-! ## TriggerClassifier: `getEndpointInfo` (src/src/core/firebase-helpers.ts)

The four regexes are embedded as explicit left-to-right scanners over the
character list.  Each regex has shape `\b(NAME…)\s*\(` (v2 style) or
`\b(functions\.(NS…)\.(TRIG…))\s*\(` (v1 style); a scanner therefore looks
for the leftmost position with a word boundary where one of the alternatives,
followed by optional whitespace and `(`, matches — alternatives tried in list
order at each position, exactly the regex backtracking order. -/

/-- The Firebase Functions version tag. -/
inductive FnVersion where
  | v1
  | v2
deriving DecidableEq, Repr

/-- `EndpointInfo` record of `firebase-helpers.ts`. -/
structure EndpointInfo where
  isEndpoint : Bool
  kind : Option String
  version : Option FnVersion
deriving DecidableEq, Repr

/-- `NOT_AN_ENDPOINT` default value. -/
def NOT_AN_ENDPOINT : EndpointInfo := ⟨false, none, none⟩

/-- `V1_ONLY_TRIGGERS` list. -/
def V1_ONLY_TRIGGERS : List String :=
  ["schedule", "ref", "instance", "document", "object", "user", "taskQueue",
   "onUpdate", "event", "testMatrix", "onNewFatalError", "onNewNonFatalError",
   "onNewAnr", "onNewTesterIosDevicePublished", "onNewAppFeedbackPublished",
   "onInAppFeedbackPublished", "onNewEnrollment", "onAccept",
   "onAppCrashDetected", "onDataWritten"]

/-- `V2_ONLY_TRIGGERS` list. -/
def V2_ONLY_TRIGGERS : List String :=
  ["onSchedule", "onTaskDispatched", "onMessagePublished",
   "onValueWritten", "onValueCreated", "onValueUpdated", "onValueDeleted",
   "onObjectFinalized", "onObjectArchived", "onObjectDeleted",
   "onObjectMetadataUpdated", "onDocumentWritten", "onDocumentCreated",
   "onDocumentUpdated", "onDocumentDeleted", "onUserCreated", "onUserDeleted",
   "onBlockingFunction", "onCustomEventPublished", "onLogWritten"]

/-- The `functions.<ns>.` namespaces shared by the v1 regexes. -/
def V1_NAMESPACES : List String :=
  ["https", "pubsub", "database", "firestore", "storage", "auth", "tasks",
   "analytics", "remoteConfig", "testLab", "crashlytics", "appDistribution",
   "alerts"]

/-- The two shared trigger call-names (`onCall`, `onRequest`). -/
def SHARED_TRIGGERS : List String := ["onCall", "onRequest"]

/-- Try, at the current position, each bare name in order followed by
`\s*\(`; return the matching name (regex group 1 of the v2-style regexes). -/
def tryBareAt (names : List String) (cs : List Char) : Option String :=
  match names with
  | [] => none
  | n :: rest =>
    match stripPre n.data cs with
    | some after => if hasPre ['('] (skipWs after) then some n else tryBareAt rest cs
    | none => tryBareAt rest cs

/-- Try, at the current position, `functions.<ns>.<trig>\s*\(` with the
namespace and trigger alternatives in order; return regex group 1
(`functions.<ns>.<trig>`). -/
def tryNamespacedAt (triggers : List String) (cs : List Char) : Option String :=
  match stripPre "functions.".data cs with
  | none => none
  | some afterFunctions => tryNsAt triggers V1_NAMESPACES afterFunctions
where
  /-- Namespace alternation. -/
  tryNsAt (triggers : List String) (nss : List String) (cs : List Char) : Option String :=
    match nss with
    | [] => none
    | ns :: rest =>
      match stripPre (ns.data ++ ['.']) cs with
      | some afterNs =>
        match tryTrigAt ns triggers afterNs with
        | some k => some k
        | none => tryNsAt triggers rest cs
      | none => tryNsAt triggers rest cs
  /-- Trigger alternation. -/
  tryTrigAt (ns : String) (trigs : List String) (cs : List Char) : Option String :=
    match trigs with
    | [] => none
    | t :: rest =>
      match stripPre t.data cs with
      | some after =>
        if hasPre ['('] (skipWs after) then some ("functions." ++ ns ++ "." ++ t)
        else tryTrigAt ns rest cs
      | none => tryTrigAt ns rest cs

/-- Left-to-right scan with the JS `\b` word-boundary test before the match
position; `prev` is the character before the current position. -/
def scanFor (tryAt : List Char → Option String) : Option Char → List Char → Option String
  | _, [] => none
  | prev, c :: cs =>
    let boundary := match prev with
      | none => true
      | some p => !isWordChar p
    match (if boundary then tryAt (c :: cs) else none) with
    | some k => some k
    | none => scanFor tryAt (some c) cs

/-- `data.match(V1_ONLY_REGEX)`: group 1 of the leftmost match, if any. -/
def matchV1Only (s : String) : Option String :=
  scanFor (tryNamespacedAt V1_ONLY_TRIGGERS) none s.data

/-- `data.match(V2_ONLY_REGEX)`: group 1 of the leftmost match, if any. -/
def matchV2Only (s : String) : Option String :=
  scanFor (tryBareAt V2_ONLY_TRIGGERS) none s.data

/-- `data.match(V1_SHARED_REGEX)`: group 1 of the leftmost match, if any. -/
def matchV1Shared (s : String) : Option String :=
  scanFor (tryNamespacedAt SHARED_TRIGGERS) none s.data

/-- `data.match(V2_SHARED_REGEX)`: group 1 of the leftmost match, if any. -/
def matchV2Shared (s : String) : Option String :=
  scanFor (tryBareAt SHARED_TRIGGERS) none s.data

/-- `getEndpointInfo` (current firebase-helpers.ts): four checks in order,
first hit wins. -/
def getEndpointInfo (data : String) : EndpointInfo :=
  match matchV1Only data with
  | some k => ⟨true, some k, some FnVersion.v1⟩
  | none =>
    match matchV2Only data with
    | some k => ⟨true, some k, some FnVersion.v2⟩
    | none =>
      match matchV1Shared data with
      | some k => ⟨true, some k, some FnVersion.v1⟩
      | none =>
        match matchV2Shared data with
        | some k => ⟨true, some k, some FnVersion.v2⟩
        | none => NOT_AN_ENDPOINT

/-- Claim C4: the trigger classifier is total and matches with first-hit-wins
precedence in the order v1-only, v2-only, shared-namespaced, shared-bare;
bare `onCall(...)` classifies as v2 with the bare-call kind,
`functions.https.onCall(...)` as v1 with the namespaced kind, and
`doSomething()` as not an endpoint. -/
theorem c4_trigger_classifier_precedence :
    (getEndpointInfo "const f = onCall(handler)" =
      ⟨true, some "onCall", some FnVersion.v2⟩) ∧
    (getEndpointInfo "const g = functions.https.onCall(handler)" =
      ⟨true, some "functions.https.onCall", some FnVersion.v1⟩) ∧
    (getEndpointInfo "doSomething()" = NOT_AN_ENDPOINT) ∧
    (∀ s k, matchV1Only s = some k →
      getEndpointInfo s = ⟨true, some k, some FnVersion.v1⟩) ∧
    (∀ s k, matchV1Only s = none → matchV2Only s = some k →
      getEndpointInfo s = ⟨true, some k, some FnVersion.v2⟩) ∧
    (∀ s k, matchV1Only s = none → matchV2Only s = none →
      matchV1Shared s = some k →
      getEndpointInfo s = ⟨true, some k, some FnVersion.v1⟩) ∧
    (∀ s k, matchV1Only s = none → matchV2Only s = none →
      matchV1Shared s = none → matchV2Shared s = some k →
      getEndpointInfo s = ⟨true, some k, some FnVersion.v2⟩) ∧
    (∀ s, matchV1Only s = none → matchV2Only s = none →
      matchV1Shared s = none → matchV2Shared s = none →
      getEndpointInfo s = NOT_AN_ENDPOINT) := by
  refine ⟨by decide, by decide, by decide, ?_, ?_, ?_, ?_, ?_⟩ <;>
    intro s <;> simp +contextual [getEndpointInfo]

/-- Witness for C4: the general precedence clauses applied at a concrete
input where their hypotheses hold. -/
theorem c4_trigger_classifier_precedence_witness :
    getEndpointInfo "exports.j = functions.pubsub.schedule(every5)" =
      ⟨true, some "functions.pubsub.schedule", some FnVersion.v1⟩ :=
  c4_trigger_classifier_precedence.2.2.2.1
    "exports.j = functions.pubsub.schedule(every5)"
    "functions.pubsub.schedule" (by decide)

/-! ## Path model (POSIX, project-root-relative)

`path.join` / `path.resolve` against a relative base and `path.normalize`
become normalized concatenation over `/`-separated segments; `path.parse`
yields the directory part and the extension-stripped name.  String splitting
and joining are implemented structurally so that all definitions evaluate
inside the kernel. -/

/-- Structural split on a separator character (JS `String.prototype.split`
with a one-character separator). -/
def splitOnCharAux (sep : Char) : List Char → List Char → List String
  | acc, [] => [acc.reverse.asString]
  | acc, c :: cs =>
    if c = sep then acc.reverse.asString :: splitOnCharAux sep [] cs
    else splitOnCharAux sep (c :: acc) cs

/-- `s.split(sep)` for a one-character separator. -/
def splitOnChar (sep : Char) (s : String) : List String :=
  splitOnCharAux sep [] s.data

/-- Join strings with a separator. -/
def joinWith (sep : String) : List String → String
  | [] => ""
  | [x] => x
  | x :: xs => x ++ sep ++ joinWith sep xs

/-- `s.endsWith(suf)`. -/
def endsWithStr (suf s : String) : Bool :=
  hasPre suf.data.reverse s.data.reverse

/-- Segment-level normalization: drop empty and `.` segments, resolve `..`
against the segment stack (keeping leading `..` of a relative path). -/
def normSegs (segs : List String) : List String :=
  segs.foldl
    (fun acc seg =>
      if seg = "" || seg = "." then acc
      else if seg = ".." then
        match acc.getLast? with
        | some last => if last = ".." then acc ++ [seg] else acc.dropLast
        | none => acc ++ [seg]
      else acc ++ [seg])
    []

/-- `path.normalize` for relative POSIX paths. -/
def pathNorm (s : String) : String :=
  match normSegs (splitOnChar '/' s) with
  | [] => "."
  | segs => joinWith "/" segs

/-- `path.join(a, b)` / `path.resolve(a, b)` for a relative-modelled base `a`
and relative `b`. -/
def pathJoin (a b : String) : String := pathNorm (a ++ "/" ++ b)

/-- `path.dirname` for relative POSIX paths. -/
def dirnameOf (s : String) : String :=
  match (splitOnChar '/' s).dropLast with
  | [] => "."
  | segs => joinWith "/" segs

/-- `path.basename` for relative POSIX paths. -/
def basenameOf (s : String) : String :=
  match (splitOnChar '/' s).getLast? with
  | some b => b
  | none => s

/-- `path.parse(s).name`: the basename with its last extension removed (a
dot at index 0 does not start an extension). -/
def parseNameOf (s : String) : String :=
  let base := basenameOf s
  match charIndexOf base.data.reverse '.' with
  | none => base
  | some r =>
    let dotIdx := base.data.length - 1 - r
    if dotIdx = 0 then base else (base.data.take dotIdx).asString

/-- `s.replace(/\.ts$/, '')`. -/
def stripTsSuffix (s : String) : String :=
  if endsWithStr ".ts" s then (s.data.take (s.data.length - 3)).asString else s

/-! ## ImportGraph: `findFilesImportingTarget` (src/src/core/find-includes.ts)

A candidate file is abstracted to its root-relative path plus the list of
module specifiers its AST yields (static import, require call, dynamic
import, wildcard and named re-export — cases 1-5 of `searchNode`); `none`
models an unreadable/unparsable file, which the scan skips with a warning. -/

/-- A source file as seen by the reference scan. -/
structure ScanFile where
  relPath : String
  specs : Option (List String)
deriving DecidableEq, Repr

/-- The set of valid normalized relative paths to match: the explicit
extension-stripped path, plus the directory itself for an `index` target. -/
def validTargetPaths (targetRel : String) : List String :=
  let norm := pathNorm targetRel
  let dir := dirnameOf norm
  let name := parseNameOf norm
  pathJoin dir name :: (if name = "index" then [pathNorm dir] else [])

/-- Resolve one module specifier against the candidate file's directory
(`path.normalize(path.join(fileRelativeDir, importString))`). -/
def resolveSpec (fileRelDir spec : String) : String :=
  pathJoin fileRelDir spec

/-- Keep-first deduplication (`[...new Set(xs)]`). -/
def dedupKeep (seen : List String) : List String → List String
  | [] => []
  | x :: xs =>
    if seen.contains x then dedupKeep seen xs
    else x :: dedupKeep (x :: seen) xs

/-- `findFilesImportingTarget(targetRel, projectRoot, allFiles)`: every
candidate other than the target whose specifiers resolve into the valid
target set. -/
def findFilesImportingTarget (targetRel : String) (files : List ScanFile) :
    List String :=
  let valid := validTargetPaths targetRel
  let target := pathNorm targetRel
  dedupKeep []
    (files.filterMap (fun f =>
      if f.relPath = target then none
      else
        match f.specs with
        | none => none
        | some sps =>
          if sps.any (fun sp => valid.contains (resolveSpec (dirnameOf f.relPath) sp))
          then some f.relPath else none))

/-- Membership through keep-first deduplication. -/
theorem mem_of_mem_dedupKeep {x : String} :
    ∀ (seen l : List String), x ∈ dedupKeep seen l → x ∈ l := by
  intro seen l
  induction l generalizing seen with
  | nil => simp [dedupKeep]
  | cons y ys ih =>
    simp only [dedupKeep]
    split
    · intro h; exact List.mem_cons_of_mem _ (ih _ h)
    · intro h
      rcases List.mem_cons.mp h with h | h
      · exact h ▸ List.mem_cons_self _ _
      · exact List.mem_cons_of_mem _ (ih _ h)

/-- Claim C6 counterexample: the reference scan does NOT strip extensions
from module specifiers.  For target `src/x.ts`, an importer written `./x` is
detected while the same importer written `./x.ts` is not — the claim's
"detected identically" fails at this input. -/
theorem c6_counterexample :
    findFilesImportingTarget "src/x.ts"
      [⟨"src/x.ts", some []⟩, ⟨"src/y.ts", some ["./x.ts"]⟩] = [] ∧
    findFilesImportingTarget "src/x.ts"
      [⟨"src/x.ts", some []⟩, ⟨"src/y.ts", some ["./x"]⟩] = ["src/y.ts"] := by
  decide

/-- Claim C6 (amended): the target path is normalized to project-root-relative
extension-stripped form, but module specifiers are resolved root-relative
WITHOUT extension stripping; hence `./x` is detected, `./x/index` is detected
for an index target, but `./x.ext` is not detected; and only files other than
the target itself are ever reported. -/
theorem c6_normalization_amended :
    (findFilesImportingTarget "src/x.ts"
      [⟨"src/x.ts", some []⟩, ⟨"src/y.ts", some ["./x"]⟩] = ["src/y.ts"]) ∧
    (findFilesImportingTarget "src/x.ts"
      [⟨"src/x.ts", some []⟩, ⟨"src/y.ts", some ["./x.ts"]⟩] = []) ∧
    (findFilesImportingTarget "src/x/index.ts"
      [⟨"src/y.ts", some ["./x"]⟩, ⟨"src/z.ts", some ["./x/index"]⟩] =
      ["src/y.ts", "src/z.ts"]) ∧
    (∀ t fs p, p ∈ findFilesImportingTarget t fs →
      ∃ sf, sf ∈ fs ∧ sf.relPath = p ∧ sf.relPath ≠ pathNorm t) := by
  refine ⟨by decide, by decide, by decide, ?_⟩
  intro t fs p hp
  have hp' := mem_of_mem_dedupKeep _ _ hp
  rcases List.mem_filterMap.mp hp' with ⟨sf, hsf, hmap⟩
  by_cases hne : sf.relPath = pathNorm t
  · rw [if_pos hne] at hmap
    exact Option.noConfusion hmap
  · rw [if_neg hne] at hmap
    refine ⟨sf, hsf, ?_, hne⟩
    cases hspecs : sf.specs with
    | none => rw [hspecs] at hmap; exact Option.noConfusion hmap
    | some sps =>
      rw [hspecs] at hmap
      have h2 : (if (sps.any fun sp =>
          (validTargetPaths t).contains (resolveSpec (dirnameOf sf.relPath) sp)) = true
          then some sf.relPath else none) = some p := hmap
      by_cases hany :
          (sps.any fun sp =>
            (validTargetPaths t).contains (resolveSpec (dirnameOf sf.relPath) sp)) = true
      · rw [if_pos hany] at h2
        exact Option.some.inj h2
      · rw [if_neg hany] at h2
        exact Option.noConfusion h2

/-- Witness for C6's general clause, applied at a concrete detected file. -/
theorem c6_normalization_amended_witness :
    ∃ sf, sf ∈ [ScanFile.mk "src/x.ts" (some []), ScanFile.mk "src/y.ts" (some ["./x"])] ∧
      sf.relPath = "src/y.ts" ∧ sf.relPath ≠ pathNorm "src/x.ts" :=
  c6_normalization_amended.2.2.2 "src/x.ts"
    [ScanFile.mk "src/x.ts" (some []), ScanFile.mk "src/y.ts" (some ["./x"])]
    "src/y.ts" (by decide)

/-! ## SourceIndex data model (src/src/core/types.ts)

`fileTopFunctions` itself parses TypeScript with the compiler API; its
results (name + start offset per top-level entity, sorted ascending by
offset) are environment data. -/

/-- `TopLevelEntity` of types.ts. -/
structure TopLevelEntity where
  fn : String
  start : Nat
deriving DecidableEq, Repr

/-- `FileFunctionsResult` of types.ts. -/
structure FileFunctionsResult where
  path : String
  funcs : List TopLevelEntity
deriving DecidableEq, Repr

/-- `AnalysisSeed` of types.ts (the optional `version` tag is never set on
the analyzer and git-analyzer code paths, so it is omitted). -/
structure AnalysisSeed where
  fn : String
  path : String
deriving DecidableEq, Repr

/-! ## ChangeLocator (src/src/utils/git-analyzer.ts)

The regex helpers of `GitChangeAnalyzer` are embedded as explicit scanners;
`execSync` of the diff/status subprocess becomes an `Except` parameter. -/

/-- `line.startsWith(pre)`. -/
def strStarts (pre s : String) : Bool := hasPre pre.data s.data

/-- `s.substring(n)`. -/
def strDrop (s : String) (n : Nat) : String := (s.data.drop n).asString

/-- `s.trim()`. -/
def trimStr (s : String) : String := (trimChars s.data).asString

/-- `convertLineToCharIndex`: cumulative line lengths (`+1` per newline) of
the lines before the 1-based `lineNumber`. -/
def convertLineToCharIndex (content : String) (lineNumber : Nat) : Nat :=
  ((splitOnChar '\n' content).take (lineNumber - 1)).foldl
    (fun acc l => acc + l.data.length + 1) 0

/-- First loop of `findEntityAtPosition`: exact start-offset match. -/
def findExactEntity (funcs : List TopLevelEntity) (position : Nat) :
    Option TopLevelEntity :=
  funcs.find? (fun e => e.start == position)

/-- Second loop of `findEntityAtPosition`: the entity whose span contains the
position; the span runs to the next entity's start, and the last entity's
span is unbounded (`Infinity` in the source). -/
def findSpanEntity : List TopLevelEntity → Nat → Option TopLevelEntity
  | [], _ => none
  | e :: rest, position =>
    let inSpan := match rest.head? with
      | some nxt => position ≥ e.start && position < nxt.start
      | none => position ≥ e.start
    if inSpan then some e else findSpanEntity rest position

/-- `findEntityAtPosition`: exact match first, then span containment. -/
def findEntityAtPosition (entityMap : FileFunctionsResult) (position : Nat) :
    Option TopLevelEntity :=
  match findExactEntity entityMap.funcs position with
  | some e => some e
  | none => findSpanEntity entityMap.funcs position

/-- `\s+` followed by greedy whitespace: requires at least one whitespace
character, consumes all. -/
def parseWs1 (cs : List Char) : Option (List Char) :=
  match cs with
  | c :: rest => if isWsChar c then some (skipWs rest) else none
  | [] => none

/-- `(\w+)`: the captured word and the remainder. -/
def takeWord1 (cs : List Char) : Option (List Char × List Char) :=
  match cs with
  | c :: _ =>
    if isWordChar c then some (cs.takeWhile isWordChar, cs.dropWhile isWordChar)
    else none
  | [] => none

/-- `(export\s+)?`: optional prefix (no alternative of the following pattern
can start with `export` followed by whitespace, so the regex backtracking
collapses to this greedy form). -/
def afterOptExport (cs : List Char) : List Char :=
  match stripPre "export".data cs with
  | some rest =>
    match parseWs1 rest with
    | some rest2 => rest2
    | none => cs
  | none => cs

/-- `(async\s+)?`: optional prefix, same reasoning as `afterOptExport`. -/
def afterOptAsync (cs : List Char) : List Char :=
  match stripPre "async".data cs with
  | some rest =>
    match parseWs1 rest with
    | some rest2 => rest2
    | none => cs
  | none => cs

/-- `(const|function|async\s+function)` alternation. -/
def parseKeywordAlt (cs : List Char) : Option (List Char) :=
  match stripPre "const".data cs with
  | some r => some r
  | none =>
    match stripPre "function".data cs with
    | some r => some r
    | none =>
      match stripPre "async".data cs with
      | some r =>
        match parseWs1 r with
        | some r2 => stripPre "function".data r2
        | none => none
      | none => none

/-- `(const|let|var)` alternation. -/
def parseDeclKw (cs : List Char) : Option (List Char) :=
  match stripPre "const".data cs with
  | some r => some r
  | none =>
    match stripPre "let".data cs with
    | some r => some r
    | none => stripPre "var".data cs

/-- `^(export\s+)?(const|function|async\s+function)\s+\w+\s*[=(]` test. -/
def testFuncDefA (cs : List Char) : Bool :=
  let cs := afterOptExport cs
  match parseKeywordAlt cs with
  | none => false
  | some r =>
    match parseWs1 r with
    | none => false
    | some r2 =>
      match takeWord1 r2 with
      | none => false
      | some (_, r3) =>
        match skipWs r3 with
        | c :: _ => c = '=' || c = '('
        | [] => false

/-- `^export\s+const\s+\w+\s*=` test. -/
def testFuncDefB (cs : List Char) : Bool :=
  match stripPre "export".data cs with
  | none => false
  | some r =>
    match parseWs1 r with
    | none => false
    | some r1 =>
      match stripPre "const".data r1 with
      | none => false
      | some r2 =>
        match parseWs1 r2 with
        | none => false
        | some r3 =>
          match takeWord1 r3 with
          | none => false
          | some (_, r4) =>
            match skipWs r4 with
            | '=' :: _ => true
            | _ => false

/-- `isFunctionDefinitionLine`. -/
def isFunctionDefinitionLine (line : String) : Bool :=
  let trimmed := trimChars line.data
  testFuncDefA trimmed || testFuncDefB trimmed

/-- One position of the unanchored `(?:export\s+)?const\s+(\w+)\s*=`
search. -/
def tryConstNameAt (cs : List Char) : Option String :=
  let cs := afterOptExport cs
  match stripPre "const".data cs with
  | none => none
  | some r =>
    match parseWs1 r with
    | none => none
    | some r2 =>
      match takeWord1 r2 with
      | none => none
      | some (w, r3) =>
        match skipWs r3 with
        | '=' :: _ => some w.asString
        | _ => none

/-- One position of the unanchored
`(?:export\s+)?(?:async\s+)?function\s+(\w+)\s*[\(]` search. -/
def tryFuncNameAt (cs : List Char) : Option String :=
  let cs := afterOptExport cs
  let cs := afterOptAsync cs
  match stripPre "function".data cs with
  | none => none
  | some r =>
    match parseWs1 r with
    | none => none
    | some r2 =>
      match takeWord1 r2 with
      | none => none
      | some (w, r3) =>
        match skipWs r3 with
        | '(' :: _ => some w.asString
        | _ => none

/-- Unanchored leftmost-match scan (the JS `exec` of a pattern with no
anchor). -/
def scanAny (tryAt : List Char → Option String) : List Char → Option String
  | [] => none
  | c :: cs =>
    match tryAt (c :: cs) with
    | some r => some r
    | none => scanAny tryAt cs

/-- `extractFunctionName`. -/
def extractFunctionName (line : String) : Option String :=
  let trimmed := trimChars line.data
  match scanAny tryConstNameAt trimmed with
  | some n => some n
  | none => scanAny tryFuncNameAt trimmed

/-- `^\s*(\w+)\s*:\s*` property-line test of `detectObjectPropertyChange`. -/
def tryPropName (t : List Char) : Option String :=
  match takeWord1 (skipWs t) with
  | none => none
  | some (w, r) =>
    match skipWs r with
    | ':' :: _ => some w.asString
    | _ => none

/-- One position of the unanchored
`(?:export\s+)?(?:const|let|var)\s+(\w+)\s*=\s*\x7b` search. -/
def tryObjDeclAt (cs : List Char) : Option String :=
  let cs := afterOptExport cs
  match parseDeclKw cs with
  | none => none
  | some r =>
    match parseWs1 r with
    | none => none
    | some r2 =>
      match takeWord1 r2 with
      | none => none
      | some (w, r3) =>
        match skipWs r3 with
        | '=' :: r4 =>
          match skipWs r4 with
          | c :: _ => if c = lbraceChar then some w.asString else none
          | [] => none
        | _ => none

/-- `detectObjectPropertyChange`. -/
def detectObjectPropertyChange (changedLine content : String) (lineNumber : Nat)
    (entityMap : FileFunctionsResult) : Option String :=
  let trimmed := trimChars changedLine.data
  match tryPropName trimmed with
  | none => none
  | some propertyName =>
    let lineCharIndex := convertLineToCharIndex content lineNumber
    match findEntityAtPosition entityMap lineCharIndex with
    | none => none
    | some containingEntity =>
      let sortedEntities := entityMap.funcs
      let entityIndex := sortedEntities.findIdx (fun e => e == containingEntity)
      let start := containingEntity.start
      let stop := match sortedEntities.get? (entityIndex + 1) with
        | some n => n.start
        | none => content.data.length
      let entityContent := substrJs content start stop
      match scanAny tryObjDeclAt entityContent.data with
      | none => none
      | some objectName =>
        match charIndexOf entityContent.data lbraceChar with
        | none => none
        | some objectStartIndex =>
          if lineCharIndex - start > objectStartIndex then
            some (objectName ++ "." ++ propertyName)
          else none

/-- Environment of `GitChangeAnalyzer`: the project root, the outcome of the
two `execSync` subprocess calls (`Except.error` models a non-zero exit), the
working-tree file contents (`none` models an unreadable file), the
constructor's entity map, and `fileTopFunctions` for untracked files. -/
structure GEnv where
  projectRoot : String
  diffExec : Except String String
  statusExec : Except String String
  fileContent : String → Option String
  topEntities : List FileFunctionsResult
  newFileEntities : String → List TopLevelEntity

/-- The constructor's `topEntitiesMap.get`: a JS `Map` built by successive
`set` keeps the last entry per key. -/
def tmapGet (l : List FileFunctionsResult) (p : String) :
    Option FileFunctionsResult :=
  l.reverse.find? (fun em => em.path == p)

/-- `${path}#${fn}` key of the `changedEntities` map. -/
def seedKeyStr (path fn : String) : String := path ++ "#" ++ fn

/-- `changedEntities.has(key)`. -/
def changedHas (changed : List (String × AnalysisSeed)) (key : String) : Bool :=
  changed.any (fun kv => kv.1 == key)

/-- `changedEntities.set(key, seed)` guarded by `has` (insertion order kept). -/
def changedAdd (changed : List (String × AnalysisSeed)) (key : String)
    (seed : AnalysisSeed) : List (String × AnalysisSeed) :=
  if changedHas changed key then changed else changed ++ [(key, seed)]

/-- First index of `s` in `l` (`diffLines.indexOf(line)`). -/
def indexOfStr (l : List String) (s : String) : Nat :=
  l.findIdx (fun x => x == s)

/-- `^@@ -\d+(?:,\d+)? \+(\d+)(?:,\d+)? @@`: the captured new-file start
line. -/
def parseHunkHeader (line : String) : Option Nat :=
  match stripPre "@@ -".data line.data with
  | none => none
  | some r0 =>
    match parseNatPre r0 with
    | none => none
    | some (_, r1) =>
      let r1 := parseOptCommaNat r1
      match stripPre " +".data r1 with
      | none => none
      | some r2 =>
        match parseNatPre r2 with
        | none => none
        | some (l, r3) =>
          let r3 := parseOptCommaNat r3
          if hasPre " @@".data r3 then some l else none
where
  /-- `\d+` with its value. -/
  parseNatPre (cs : List Char) : Option (Nat × List Char) :=
    match cs with
    | c :: _ =>
      if c.isDigit then
        some ((cs.takeWhile Char.isDigit).foldl (fun n d => n * 10 + (d.toNat - 48)) 0,
          cs.dropWhile Char.isDigit)
      else none
    | [] => none
  /-- `(?:,\d+)?`. -/
  parseOptCommaNat (cs : List Char) : List Char :=
    match cs with
    | ',' :: rest =>
      match rest with
      | d :: _ => if d.isDigit then rest.dropWhile Char.isDigit else cs
      | [] => cs
    | _ => cs

/-- State threaded through the 50-line read-ahead of one hunk. -/
structure HunkScanState where
  foundNewFunction : Bool
  foundPropertyChange : Bool
  currentLineNumber : Nat
  changed : List (String × AnalysisSeed)

/-- The per-added-line body of the hunk read-ahead: object-property
detection first, then new-function detection (each latching its `found`
flag only when a new map entry was inserted, as in the source). -/
def hunkAddedLine (content : String) (entityMap : FileFunctionsResult)
    (filePath : String) (addedLine : String) (st : HunkScanState) :
    HunkScanState :=
  let st1 :=
    if !st.foundPropertyChange then
      match detectObjectPropertyChange addedLine content st.currentLineNumber entityMap with
      | some propertyPath =>
        let key := seedKeyStr filePath propertyPath
        if changedHas st.changed key then st
        else { st with
          changed := st.changed ++ [(key, ⟨propertyPath, filePath⟩)],
          foundPropertyChange := true }
      | none => st
    else st
  if !st1.foundNewFunction && isFunctionDefinitionLine addedLine then
    match extractFunctionName addedLine with
    | some functionName =>
      match entityMap.funcs.find? (fun e => e.fn == functionName) with
      | some newEntity =>
        let key := seedKeyStr filePath newEntity.fn
        if changedHas st1.changed key then st1
        else { st1 with
          changed := st1.changed ++ [(key, ⟨newEntity.fn, filePath⟩)],
          foundNewFunction := true }
      | none => st1
    | none => st1
  else st1

/-- The hunk read-ahead loop
(`for i = idx+1; i < diffLines.length && i < idx+50; i++`), with the JS
falsy break on an empty line. -/
def hunkLookahead (content : String) (entityMap : FileFunctionsResult)
    (filePath : String) (diffLines : List String) :
    Nat → Nat → HunkScanState → HunkScanState
  | _, 0, st => st
  | i, remaining + 1, st =>
    match diffLines.get? i with
    | none => st
    | some hunkLine =>
      if hunkLine = "" then st
      else if strStarts "@@" hunkLine || strStarts "+++" hunkLine ||
          strStarts "---" hunkLine then st
      else if strStarts "+" hunkLine && !strStarts "+++" hunkLine then
        let st' := hunkAddedLine content entityMap filePath (strDrop hunkLine 1) st
        hunkLookahead content entityMap filePath diffLines (i + 1) remaining
          { st' with currentLineNumber := st'.currentLineNumber + 1 }
      else if strStarts " " hunkLine then
        hunkLookahead content entityMap filePath diffLines (i + 1) remaining
          { st with currentLineNumber := st.currentLineNumber + 1 }
      else
        hunkLookahead content entityMap filePath diffLines (i + 1) remaining st

/-- State of the main diff-line loop. -/
structure DiffState where
  currentFilePath : Option String
  changed : List (String × AnalysisSeed)

/-- Handling of one `@@` hunk header: line-to-offset conversion, read-ahead,
and the position-based fallback when neither a new function nor a property
change was found. -/
def processHunk (fileContent : String → Option String)
    (topEntities : List FileFunctionsResult) (diffLines : List String)
    (line : String) (currentFilePath : String) (st : DiffState) : DiffState :=
  match parseHunkHeader line with
  | none => st
  | some hunkStartLine =>
    match fileContent currentFilePath with
    | none => st
    | some content =>
      if content = "" then st
      else
        let charIndex := convertLineToCharIndex content hunkStartLine
        match tmapGet topEntities currentFilePath with
        | none => st
        | some entityMap =>
          let currentLineIndex := indexOfStr diffLines line
          let hst := hunkLookahead content entityMap currentFilePath diffLines
            (currentLineIndex + 1) 49
            ⟨false, false, hunkStartLine, st.changed⟩
          if !hst.foundNewFunction && !hst.foundPropertyChange then
            match findEntityAtPosition entityMap charIndex with
            | some entity =>
              let changed' := changedAdd hst.changed
                (seedKeyStr currentFilePath entity.fn)
                (AnalysisSeed.mk entity.fn currentFilePath)
              { st with changed := changed' }
            | none => { st with changed := hst.changed }
          else { st with changed := hst.changed }

/-- The main loop over the diff lines. -/
def diffLoop (projectRoot : String) (fileContent : String → Option String)
    (topEntities : List FileFunctionsResult) (diffLines : List String) :
    List String → DiffState → DiffState
  | [], st => st
  | line :: rest, st =>
    if strStarts "+++ b/" line then
      diffLoop projectRoot fileContent topEntities diffLines rest
        { st with currentFilePath := some (pathJoin projectRoot (strDrop line 6)) }
    else
      match st.currentFilePath with
      | none => diffLoop projectRoot fileContent topEntities diffLines rest st
      | some currentFilePath =>
        if strStarts "@@" line then
          diffLoop projectRoot fileContent topEntities diffLines rest
            (processHunk fileContent topEntities diffLines line currentFilePath st)
        else diffLoop projectRoot fileContent topEntities diffLines rest st

/-- The `git status --porcelain` section: untracked `?? ` files contribute
every one of their entities; any status failure is silently ignored. -/
def statusPart (statusExec : Except String String) (projectRoot : String)
    (newFileEntities : String → List TopLevelEntity)
    (changed : List (String × AnalysisSeed)) : List (String × AnalysisSeed) :=
  match statusExec with
  | .error _ => changed
  | .ok statusOutput =>
    let statusLines := splitOnChar '\n' statusOutput
    let newFiles := statusLines.foldl
      (fun acc line =>
        if strStarts "??" line then
          let rel := trimStr (strDrop line 3)
          if rel = "" then acc
          else
            let rootBasename := basenameOf projectRoot
            let rel2 :=
              if strStarts (rootBasename ++ "/") rel then
                strDrop rel (rootBasename.data.length + 1)
              else rel
            acc ++ [pathJoin projectRoot rel2]
        else acc)
      []
    let newEntities := newFiles.flatMap
      (fun f => (newFileEntities f).map (fun e => AnalysisSeed.mk e.fn f))
    newEntities.foldl
      (fun acc e => changedAdd acc (seedKeyStr e.path e.fn) e) changed

/-- `getChangedEntities`: a failing diff subprocess is caught (an error is
logged and the empty list returned); otherwise the diff is scanned and the
status section appended. -/
def getChangedEntities (env : GEnv) : List AnalysisSeed :=
  match env.diffExec with
  | .error _ => []
  | .ok diffOutput =>
    let diffLines := splitOnChar '\n' diffOutput
    let st := diffLoop env.projectRoot env.fileContent env.topEntities
      diffLines diffLines ⟨none, []⟩
    (statusPart env.statusExec env.projectRoot env.newFileEntities st.changed).map (·.2)

/-! ## Claims C3 and C5 -/

/-- Concrete run in which the diff subprocess fails while real changes
exist (the status section would yield a seed). -/
def c3FailEnv : GEnv := {
  projectRoot := "p"
  diffExec := .error "fatal: bad revision HEAD"
  statusExec := .ok "?? new.ts\n"
  fileContent := fun _ => none
  topEntities := []
  newFileEntities := fun f => if f = "p/new.ts" then [⟨"fresh", 0⟩] else [] }

/-- Concrete run in which the diff text is not unified-hunk grammar. -/
def c3GarbageEnv : GEnv := {
  projectRoot := "p"
  diffExec := .ok "this is not a diff at all\nrandom text"
  statusExec := .ok ""
  fileContent := fun p => if p = "p/f.ts" then some "const a = 1;\n" else none
  topEntities := [⟨"p/f.ts", [⟨"a", 0⟩]⟩]
  newFileEntities := fun _ => [] }

/-- Claim C3 counterexample: a failing diff subprocess is converted into a
normally returned empty seed list — the error is not surfaced and an (empty,
under-reported) result IS emitted; the same environment with a working diff
subprocess shows the change that was dropped.  Non-grammar diff text is
likewise silently ignored rather than failing. -/
theorem c3_counterexample :
    getChangedEntities c3FailEnv = [] ∧
    getChangedEntities { c3FailEnv with diffExec := .ok "" } =
      [⟨"fresh", "p/new.ts"⟩] ∧
    getChangedEntities c3GarbageEnv = [] := by
  decide

/-- `statusPart` with a successful but empty status output changes
nothing. -/
theorem statusPart_ok_empty (r : String) (nf : String → List TopLevelEntity)
    (c : List (String × AnalysisSeed)) :
    statusPart (Except.ok "") r nf c = c := rfl

/-- Claim C3 (amended): a non-zero diff exit is caught — the error is logged
and the empty seed list is returned (no exception reaches the caller); a
non-zero status exit is silently ignored, leaving only diff-derived seeds;
diff text outside the unified-hunk grammar is skipped, not an error. -/
theorem c3_subprocess_amended :
    (∀ env msg, env.diffExec = Except.error msg → getChangedEntities env = []) ∧
    (∀ env msg, env.statusExec = Except.error msg →
      getChangedEntities env =
        getChangedEntities { env with statusExec := Except.ok "" }) ∧
    (getChangedEntities c3GarbageEnv = []) := by
  refine ⟨?_, ?_, by decide⟩
  · intro env msg h
    simp [getChangedEntities, h]
  · intro env msg h
    obtain ⟨pr, de, se, fc, te, nf⟩ := env
    cases h
    cases de with
    | error e => rfl
    | ok diffOutput => rfl

/-- Witness for C3's amended clauses, applied at the concrete failing
environment. -/
theorem c3_subprocess_amended_witness :
    getChangedEntities c3FailEnv = [] :=
  c3_subprocess_amended.1 c3FailEnv "fatal: bad revision HEAD" rfl

/-- The claim's enclosing-declaration selection, written from the claim's
words: an exact start-offset match first, otherwise the declaration whose
half-open span — start offset up to the next declaration's start offset, or
END-OF-FILE for the last — contains the offset. -/
def specClaimSpan : List TopLevelEntity → Nat → Nat → Option TopLevelEntity
  | [], _, _ => none
  | e :: rest, eof, pos =>
    let stop := match rest.head? with
      | some nxt => nxt.start
      | none => eof
    if e.start ≤ pos && pos < stop then some e else specClaimSpan rest eof pos

/-- Exact-match-first selection per the claim's words (end-of-file cap). -/
def specClaimEnclosing (funcs : List TopLevelEntity) (eof pos : Nat) :
    Option TopLevelEntity :=
  match funcs.find? (fun e => e.start == pos) with
  | some e => some e
  | none => specClaimSpan funcs eof pos

/-- The amended selection: the last declaration's span is unbounded above
(the source uses `Infinity`, not the end of file). -/
def specAmendedSpan : List TopLevelEntity → Nat → Option TopLevelEntity
  | [], _ => none
  | e :: rest, pos =>
    match rest.head? with
    | some nxt =>
      if e.start ≤ pos && pos < nxt.start then some e
      else specAmendedSpan rest pos
    | none => if e.start ≤ pos then some e else none

/-- Exact-match-first selection with the unbounded last span. -/
def specAmendedEnclosing (funcs : List TopLevelEntity) (pos : Nat) :
    Option TopLevelEntity :=
  match funcs.find? (fun e => e.start == pos) with
  | some e => some e
  | none => specAmendedSpan funcs pos

/-- A hunk whose computed offset equals the end of file: the code still
selects the last declaration and emits a seed. -/
def c5CounterEnv : GEnv := {
  projectRoot := "p"
  diffExec := .ok "+++ b/f.ts\n@@ -2,1 +2,0 @@\n- x\n"
  statusExec := .ok ""
  fileContent := fun p => if p = "p/f.ts" then some "const a = 1;\n" else none
  topEntities := [⟨"p/f.ts", [⟨"a", 0⟩]⟩]
  newFileEntities := fun _ => [] }

/-- A hunk whose computed offset lies before every declaration: no seed. -/
def c5NoSeedEnv : GEnv := {
  projectRoot := "p"
  diffExec := .ok "+++ b/g.ts\n@@ -1,1 +1,1 @@\n x;\n"
  statusExec := .ok ""
  fileContent := fun p => if p = "p/g.ts" then some "x;\nconst a = 1;\n" else none
  topEntities := [⟨"p/g.ts", [⟨"a", 3⟩]⟩]
  newFileEntities := fun _ => [] }

/-- Claim C5 counterexample: for content `"const a = 1;\n"` (13 characters,
one declaration at offset 0) a hunk reporting new-file line 2 maps to offset
13 = end of file; the claim's half-open span capped at end-of-file contains
no declaration, so the claim requires no seed — but the code selects the
last declaration and emits seed `a`. -/
theorem c5_counterexample :
    convertLineToCharIndex "const a = 1;\n" 2 = 13 ∧
    specClaimEnclosing [⟨"a", 0⟩] 13 13 = none ∧
    findEntityAtPosition ⟨"p/f.ts", [⟨"a", 0⟩]⟩ 13 = some ⟨"a", 0⟩ ∧
    getChangedEntities c5CounterEnv = [⟨"a", "p/f.ts"⟩] := by
  decide

/-- Generalized fold form of the cumulative line-length sum. -/
theorem foldl_addlen (l : List String) (acc : Nat) :
    l.foldl (fun a s => a + s.data.length + 1) acc =
      acc + (l.map (fun s => s.data.length + 1)).sum := by
  induction l generalizing acc with
  | nil => simp
  | cons x xs ih =>
    simp only [List.foldl_cons, List.map_cons, List.sum_cons]
    rw [ih]
    omega

/-- The span loop equals the amended-claim span selection. -/
theorem findSpanEntity_eq_specAmendedSpan (l : List TopLevelEntity) (pos : Nat) :
    findSpanEntity l pos = specAmendedSpan l pos := by
  induction l with
  | nil => rfl
  | cons e rest ih =>
    cases rest with
    | nil => simp [findSpanEntity, specAmendedSpan]
    | cons n rs =>
      show (if (decide (pos ≥ e.start) && decide (pos < n.start)) = true
            then some e else findSpanEntity (n :: rs) pos) =
           (if (decide (e.start ≤ pos) && decide (pos < n.start)) = true
            then some e else specAmendedSpan (n :: rs) pos)
      rw [ih]

/-- Claim C5 (amended): the hunk start line is converted to an offset by
cumulative line lengths; selection is exact-start-match first, otherwise the
declaration whose half-open span contains the offset, where the LAST
declaration's span is unbounded above rather than capped at end-of-file;
when no declaration's span contains the offset no seed is emitted. -/
theorem c5_hunk_mapping_amended :
    (∀ content L, convertLineToCharIndex content L =
      (((splitOnChar '\n' content).take (L - 1)).map
        (fun l => l.data.length + 1)).sum) ∧
    (∀ em pos, findEntityAtPosition em pos = specAmendedEnclosing em.funcs pos) ∧
    (getChangedEntities c5NoSeedEnv = []) := by
  refine ⟨?_, ?_, by decide⟩
  · intro content L
    simpa [convertLineToCharIndex] using
      foldl_addlen ((splitOnChar '\n' content).take (L - 1)) 0
  · intro em pos
    simp only [findEntityAtPosition, specAmendedEnclosing, findExactEntity,
      findSpanEntity_eq_specAmendedSpan]

/-! ## ImpactEngine: `FaeptsAnalyzer` (current core/analyzer module)

The analyzer's environment carries the project file list, each file's module
specifiers and export declarations (the TypeScript-AST extraction), the file
contents, and the pre-built top-entity index.  All paths are root-relative
(`path.relative(root, ·)` is the identity in this model). -/

/-- One `export … from '<spec>'` declaration of a file, in AST order:
`named = some l` is `export \x7b l \x7d from`, `none` is `export * from`. -/
structure ExportDecl where
  spec : String
  named : Option (List String)
deriving DecidableEq, Repr

/-- `ReExportInfo` of the analyzer module. -/
structure ReExportInfo where
  path : String
  exportedNames : Option (List String)
deriving DecidableEq, Repr

/-- Environment of `FaeptsAnalyzer`. -/
structure AEnv where
  files : List String
  specsOf : String → Option (List String)
  exportDecls : String → List ExportDecl
  fileContent : String → Option String
  topEntities : List FileFunctionsResult

/-- Build a `ReExportInfo` from a matching declaration: a named list
collapses to a wildcard when empty, exactly as in the source
(`exportedNames.length > 0 ? exportedNames : null`). -/
def reExportMkInfo (targetPath : String) (d : ExportDecl) : ReExportInfo :=
  ⟨targetPath,
    match d.named with
    | some l => if l.isEmpty then none else some l
    | none => none⟩

/-- The `searchNode` walk of `findReExportedInfo`: the first export
declaration whose specifier resolves (with an appended `.ts`, else as
written) to the normalized extension-stripped target. -/
def findReExportGo (targetPath fileDir targetPathNormalized : String) :
    List ExportDecl → Option ReExportInfo
  | [] => none
  | d :: rest =>
    if pathNorm (stripTsSuffix (pathJoin fileDir (d.spec ++ ".ts"))) =
        targetPathNormalized then
      some (reExportMkInfo targetPath d)
    else if pathNorm (stripTsSuffix (pathJoin fileDir d.spec)) =
        targetPathNormalized then
      some (reExportMkInfo targetPath d)
    else findReExportGo targetPath fileDir targetPathNormalized rest

/-- `findReExportedInfo(filePath, targetPath)`. -/
def findReExportedInfo (env : AEnv) (filePath targetPath : String) :
    Option ReExportInfo :=
  match env.fileContent filePath with
  | none => none
  | some content =>
    if content = "" then none
    else
      findReExportGo targetPath (dirnameOf filePath)
        (pathNorm (stripTsSuffix targetPath)) (env.exportDecls filePath)

/-- The guarded `this.endPoints.push` (deduplicated by path + fn). -/
def pushEndpoint (eps : List AnalysisSeed) (tmp : AnalysisSeed) :
    List AnalysisSeed :=
  if eps.any (fun e => e.path == tmp.path && e.fn == tmp.fn) then eps
  else eps ++ [tmp]

/-- The inner entity loop of `findDirectDependents`: in the seed's own file
only the seed's own declaration is examined (`currentEntity.fn !==
baseData.fn → continue`); a block containing the seed's name as a substring
yields a dependent, and an endpoint when the block classifies as one.  The
accumulator pairs (affectedFunctions, endPoints). -/
def scanEntities (base : AnalysisSeed) (filePath : String) (content : String) :
    List TopLevelEntity → List AnalysisSeed × List AnalysisSeed →
    List AnalysisSeed × List AnalysisSeed
  | [], acc => acc
  | e :: rest, (affected, eps) =>
    if filePath = base.path ∧ e.fn ≠ base.fn then
      scanEntities base filePath content rest (affected, eps)
    else
      let stop := match rest.head? with
        | some n => n.start
        | none => content.data.length
      let block := substrJs content e.start stop
      if containsSub block.data base.fn.data then
        let tmp := AnalysisSeed.mk e.fn filePath
        let eps' := if (getEndpointInfo block).isEndpoint then
            pushEndpoint eps tmp else eps
        scanEntities base filePath content rest (affected ++ [tmp], eps')
      else scanEntities base filePath content rest (affected, eps)

/-- The `shouldIncludeFunction` flag of the re-export handling: a wildcard
re-export admits any changed function, a named list only its members. -/
def shouldIncludeFn (exportedNames : Option (List String)) (fn : String) : Bool :=
  match exportedNames with
  | none => true
  | some l => l.contains fn

/-- The re-export handling of `findDirectDependents`: the changed function
propagates through the re-exporting candidate only when the re-export
resolution admits it AND its own block classifies as an endpoint. -/
def reExportBranch (env : AEnv) (base : AnalysisSeed)
    (acc : List AnalysisSeed × List AnalysisSeed) (info : ReExportInfo) :
    List AnalysisSeed × List AnalysisSeed :=
  match env.topEntities.find? (fun em => em.path == info.path) with
  | none => acc
  | some reExportedEntityMap =>
    if shouldIncludeFn info.exportedNames base.fn then
      match reExportedEntityMap.funcs.find? (fun e => e.fn == base.fn) with
      | none => acc
      | some changedEntity =>
        match env.fileContent info.path with
        | none => acc
        | some reExportedFileContent =>
          if reExportedFileContent = "" then acc
          else
            let sortedEntities := reExportedEntityMap.funcs
            let entityIndex := sortedEntities.findIdx (fun e => e == changedEntity)
            let stop := match sortedEntities.get? (entityIndex + 1) with
              | some n => n.start
              | none => reExportedFileContent.data.length
            let blockContent :=
              substrJs reExportedFileContent changedEntity.start stop
            if (getEndpointInfo blockContent).isEndpoint then
              let tmp := AnalysisSeed.mk changedEntity.fn info.path
              (acc.1 ++ [tmp], pushEndpoint acc.2 tmp)
            else acc
    else acc

/-- One candidate file of `findDirectDependents`: unreadable/empty content
skips; a re-exporting candidate is handled by the re-export branch and then
skipped (`reExportInfo.path === baseData.path` always holds for a found
re-export, and the `isReExportedFile` check is embedded as written);
otherwise the entity map is looked up and the block scan runs. -/
def processFile (env : AEnv) (base : AnalysisSeed)
    (acc : List AnalysisSeed × List AnalysisSeed) (affectedFilePath : String) :
    List AnalysisSeed × List AnalysisSeed :=
  match env.fileContent affectedFilePath with
  | none => acc
  | some fileContent =>
    if fileContent = "" then acc
    else
      let scan := fun (acc1 : List AnalysisSeed × List AnalysisSeed) =>
        match env.topEntities.find? (fun em => em.path == affectedFilePath) with
        | none => acc1
        | some entityMap =>
          scanEntities base affectedFilePath fileContent entityMap.funcs acc1
      match findReExportedInfo env affectedFilePath base.path with
      | some reExportInfo =>
        let acc1 := reExportBranch env base acc reExportInfo
        if reExportInfo.path = base.path then acc1
        else if reExportInfo.path = affectedFilePath then acc1
        else scan acc1
      | none => scan acc

/-- Keep-first deduplication of seeds by the `${path}#${fn}` key (the
`uniqueResults` map at the end of `findDirectDependents`). -/
def dedupSeeds (seen : List String) : List AnalysisSeed → List AnalysisSeed
  | [] => []
  | s :: rest =>
    let k := seedKeyStr s.path s.fn
    if seen.contains k then dedupSeeds seen rest
    else s :: dedupSeeds (k :: seen) rest

/-- `findDirectDependents(baseData)` given the current `endPoints` list:
returns the deduplicated direct dependents and the updated endpoint list. -/
def findDirectDependents (env : AEnv) (base : AnalysisSeed)
    (eps : List AnalysisSeed) : List AnalysisSeed × List AnalysisSeed :=
  let importingFiles := findFilesImportingTarget base.path
    (env.files.map (fun f => ScanFile.mk f (env.specsOf f)))
  let candidates := importingFiles ++ [base.path]
  let res := candidates.foldl (processFile env base) ([], eps)
  (dedupSeeds [] res.1, res.2)

/-- The dependents list of a seed (independent of the endpoint state, see
`findDirectDependents_fst_eps`). -/
def directDeps (env : AEnv) (base : AnalysisSeed) : List AnalysisSeed :=
  (findDirectDependents env base []).1

/-- `AnalysisResult` of types.ts; `checked = false` is IN_PROGRESS,
`checked = true` is DONE. -/
structure AnalysisResult where
  fn : String
  path : String
  checked : Bool
  result : List AnalysisSeed
deriving DecidableEq, Repr

/-- The `${path}#${fn}` checklist key, as a pair. -/
abbrev AKey := String × String

/-- Key of a seed. -/
def seedKey (s : AnalysisSeed) : AKey := (s.path, s.fn)

/-- The analyzer's mutable state: `analysisChecklist` and `endPoints`. -/
structure AState where
  checklist : List (AKey × AnalysisResult)
  endPoints : List AnalysisSeed
deriving DecidableEq, Repr

/-- `analysisChecklist.get(key)`. -/
def clLookup : List (AKey × AnalysisResult) → AKey → Option AnalysisResult
  | [], _ => none
  | (k0, v0) :: rest, k => if k0 = k then some v0 else clLookup rest k

/-- `analysisChecklist.set(key, v)`: replace in place, else append (JS `Map`
insertion-order semantics). -/
def clSet : List (AKey × AnalysisResult) → AKey → AnalysisResult →
    List (AKey × AnalysisResult)
  | [], k, v => [(k, v)]
  | (k0, v0) :: rest, k, v =>
    if k0 = k then (k, v) :: rest else (k0, v0) :: clSet rest k v

/-- The `for (const dependent of directDependents)` loop, parameterized by
the recursive call. -/
def recAnalyzeStep (recurse : AnalysisSeed → AState → Option AState) :
    List AnalysisSeed → AState → Option AState
  | [], st => some st
  | d :: rest, st =>
    match recurse d st with
    | none => none
    | some st' => recAnalyzeStep recurse rest st'

/-- `_recursiveAnalyze`, with a fuel parameter standing for the call stack:
`none` is fuel exhaustion (never reached with sufficient fuel, see
`recAnalyze_isSome_of_fuel`).  A key already present — whether DONE
(`checked === true`) or IN_PROGRESS (`checked === false`, the cycle case) —
returns immediately; otherwise the key is marked IN_PROGRESS, the direct
dependents are computed (updating `endPoints`), each dependent is analyzed
recursively, and the key is marked DONE carrying the dependent list. -/
def recAnalyze (env : AEnv) : Nat → AnalysisSeed → AState → Option AState
  | 0, _, _ => none
  | Nat.succ f, b, st =>
    match clLookup st.checklist (seedKey b) with
    | some _ => some st
    | none =>
      let st1 : AState :=
        ⟨clSet st.checklist (seedKey b) ⟨b.fn, b.path, false, []⟩, st.endPoints⟩
      let pr := findDirectDependents env b st1.endPoints
      let st2 : AState := ⟨st1.checklist, pr.2⟩
      match recAnalyzeStep (recAnalyze env f) pr.1 st2 with
      | none => none
      | some st3 =>
        some ⟨clSet st3.checklist (seedKey b) ⟨b.fn, b.path, true, pr.1⟩,
          st3.endPoints⟩

/-- The finite key universe: every (path, fn) of the top-entity index. -/
def uKeys (env : AEnv) : List AKey :=
  env.topEntities.flatMap (fun em => em.funcs.map (fun e => (em.path, e.fn)))

/-- Number of universe keys not yet in the checklist. -/
def missingCount (env : AEnv) (st : AState) : Nat :=
  ((uKeys env).filter (fun k => (clLookup st.checklist k).isNone)).length

/-- `findAffectedFunctionsRecursive` for one seed, at a fuel proven
sufficient. -/
def runOne (env : AEnv) (st : AState) (b : AnalysisSeed) : AState :=
  match recAnalyze env (missingCount env st + 2) b st with
  | some st' => st'
  | none => st

/-- The CLI driver loop: analyze every seed against the shared state. -/
def runAnalysis (env : AEnv) (seeds : List AnalysisSeed) : AState :=
  seeds.foldl (runOne env) ⟨[], []⟩

/-! ## Analyzer lemmas -/

/-- Lookup after `clSet`. -/
theorem clLookup_clSet (cl : List (AKey × AnalysisResult)) (k : AKey)
    (v : AnalysisResult) (q : AKey) :
    clLookup (clSet cl k v) q = if q = k then some v else clLookup cl q := by
  induction cl with
  | nil =>
    by_cases h : q = k
    · simp [clSet, clLookup, h]
    · have h' : ¬k = q := fun hh => h hh.symm
      simp [clSet, clLookup, h, h']
  | cons kv rest ih =>
    obtain ⟨k0, v0⟩ := kv
    by_cases h0 : k0 = k
    · subst h0
      by_cases h : q = k0
      · simp [clSet, clLookup, h]
      · have h' : ¬k0 = q := fun hh => h hh.symm
        simp [clSet, clLookup, h, h']
    · by_cases h : k0 = q
      · have hqk : ¬q = k := fun hh => h0 (h.trans hh)
        simp [clSet, clLookup, h0, h, hqk]
      · simp [clSet, clLookup, h0, h, ih]

/-- A present key stays present through `clSet`. -/
theorem clLookup_clSet_isSome (cl : List (AKey × AnalysisResult)) (k : AKey)
    (v : AnalysisResult) (q : AKey) (h : (clLookup cl q).isSome) :
    (clLookup (clSet cl k v) q).isSome := by
  rw [clLookup_clSet]
  by_cases hq : q = k <;> simp [hq, h]

/-- Filtering with a stronger predicate yields at most as many elements. -/
theorem filter_length_mono {α : Type} (l : List α) (p q : α → Bool)
    (h : ∀ x, p x = true → q x = true) :
    (l.filter p).length ≤ (l.filter q).length := by
  induction l with
  | nil => simp
  | cons x xs ih =>
    cases hp : p x with
    | true =>
      have hq := h x hp
      simp [List.filter_cons, hp, hq]
      omega
    | false =>
      cases hq : q x with
      | true =>
        simp [List.filter_cons, hp, hq]
        omega
      | false =>
        simp [List.filter_cons, hp, hq]
        exact ih

/-- Strict version at an element separating the two predicates. -/
theorem filter_length_lt {α : Type} (l : List α) (p q : α → Bool)
    (h : ∀ x, p x = true → q x = true) (a : α) (ha : a ∈ l)
    (hpa : p a = false) (hqa : q a = true) :
    (l.filter p).length < (l.filter q).length := by
  induction l with
  | nil => cases ha
  | cons x xs ih =>
    rcases List.mem_cons.mp ha with h1 | h1
    · subst h1
      have hmono := filter_length_mono xs p q h
      simp [List.filter_cons, hpa, hqa]
      omega
    · cases hp : p x with
      | true =>
        have hq := h x hp
        have := ih h1
        simp [List.filter_cons, hp, hq]
        omega
      | false =>
        cases hq : q x with
        | true =>
          have := ih h1
          simp [List.filter_cons, hp, hq]
          omega
        | false =>
          have := ih h1
          simp [List.filter_cons, hp, hq]
          exact this

/-- Endpoint keys. -/
def epKeys (eps : List AnalysisSeed) : List AKey :=
  eps.map (fun e => (e.path, e.fn))

/-- The endpoint list is deduplicated by (path, fn). -/
def epNodup (eps : List AnalysisSeed) : Prop := (epKeys eps).Nodup

/-- Members survive an endpoint push. -/
theorem pushEndpoint_mem (eps : List AnalysisSeed) (t x : AnalysisSeed)
    (h : x ∈ eps) : x ∈ pushEndpoint eps t := by
  unfold pushEndpoint
  split
  · exact h
  · exact List.mem_append_left _ h

/-- An endpoint push preserves key-uniqueness. -/
theorem pushEndpoint_nodup (eps : List AnalysisSeed) (t : AnalysisSeed)
    (h : epNodup eps) : epNodup (pushEndpoint eps t) := by
  unfold pushEndpoint
  split
  · exact h
  · next hguard =>
    have hnot : (t.path, t.fn) ∉ epKeys eps := by
      intro hmem
      rcases List.mem_map.mp hmem with ⟨e, he, hkey⟩
      apply hguard
      refine List.any_eq_true.mpr ⟨e, he, ?_⟩
      have h1 : e.path = t.path := congrArg Prod.fst hkey
      have h2 : e.fn = t.fn := congrArg Prod.snd hkey
      simp [h1, h2]
    have : epKeys (eps ++ [t]) = epKeys eps ++ [(t.path, t.fn)] := by
      simp [epKeys]
    rw [epNodup, this]
    simp [List.nodup_append]
    exact ⟨h, fun hc => hnot hc⟩

/-- Membership through seed deduplication. -/
theorem mem_of_mem_dedupSeeds (x : AnalysisSeed) :
    ∀ (seen : List String) (l : List AnalysisSeed),
    x ∈ dedupSeeds seen l → x ∈ l := by
  intro seen l
  induction l generalizing seen with
  | nil => simp [dedupSeeds]
  | cons y ys ih =>
    simp only [dedupSeeds]
    split
    · intro h; exact List.mem_cons_of_mem _ (ih _ h)
    · intro h
      rcases List.mem_cons.mp h with h | h
      · exact h ▸ List.mem_cons_self _ _
      · exact List.mem_cons_of_mem _ (ih _ h)

/-- The declaration walk always reports the target path itself. -/
theorem findReExportGo_path (t fd tn : String) (i : ReExportInfo) :
    ∀ decls, findReExportGo t fd tn decls = some i → i.path = t := by
  intro decls
  induction decls with
  | nil => intro h; exact Option.noConfusion h
  | cons d rest ih =>
    intro h
    simp only [findReExportGo] at h
    split at h
    · cases h; rfl
    · split at h
      · cases h; rfl
      · exact ih h

/-- A found re-export always reports the target path itself. -/
theorem findReExportedInfo_path (env : AEnv) (f t : String) (i : ReExportInfo)
    (h : findReExportedInfo env f t = some i) : i.path = t := by
  unfold findReExportedInfo at h
  cases hc : env.fileContent f with
  | none => rw [hc] at h; exact Option.noConfusion h
  | some content =>
    rw [hc] at h
    have h2 : (if content = "" then none
        else findReExportGo t (dirnameOf f) (pathNorm (stripTsSuffix t))
          (env.exportDecls f)) = some i := h
    by_cases hce : content = ""
    · rw [if_pos hce] at h2; exact Option.noConfusion h2
    · rw [if_neg hce] at h2
      exact findReExportGo_path _ _ _ _ _ h2

/-- Universe membership from an indexed entity. -/
theorem mem_uKeys_of (env : AEnv) (em : FileFunctionsResult)
    (ent : TopLevelEntity) (hem : em ∈ env.topEntities)
    (hent : ent ∈ em.funcs) : (em.path, ent.fn) ∈ uKeys env := by
  refine List.mem_flatMap.mpr ⟨em, hem, ?_⟩
  exact List.mem_map.mpr ⟨ent, hent, rfl⟩

/-- Endpoint-list membership survives the entity scan. -/
theorem scanEntities_eps_mem (base : AnalysisSeed) (f c : String) :
    ∀ (funcs : List TopLevelEntity) (a e : List AnalysisSeed) (x : AnalysisSeed),
    x ∈ e → x ∈ (scanEntities base f c funcs (a, e)).2 := by
  intro funcs
  induction funcs with
  | nil => intro a e x hx; simpa [scanEntities] using hx
  | cons ent rest ih =>
    intro a e x hx
    simp only [scanEntities]
    split
    · exact ih a e x hx
    · split
      · apply ih
        split
        · exact pushEndpoint_mem _ _ _ hx
        · exact hx
      · exact ih a e x hx

/-- Key-uniqueness of endpoints survives the entity scan. -/
theorem scanEntities_eps_nodup (base : AnalysisSeed) (f c : String) :
    ∀ (funcs : List TopLevelEntity) (a e : List AnalysisSeed),
    epNodup e → epNodup (scanEntities base f c funcs (a, e)).2 := by
  intro funcs
  induction funcs with
  | nil => intro a e hx; simpa [scanEntities] using hx
  | cons ent rest ih =>
    intro a e hx
    simp only [scanEntities]
    split
    · exact ih a e hx
    · split
      · apply ih
        split
        · exact pushEndpoint_nodup _ _ hx
        · exact hx
      · exact ih a e hx

/-- The dependents produced by the entity scan do not depend on the incoming
endpoint list. -/
theorem scanEntities_fst_eps (base : AnalysisSeed) (f c : String) :
    ∀ (funcs : List TopLevelEntity) (a e e' : List AnalysisSeed),
    (scanEntities base f c funcs (a, e)).1 =
      (scanEntities base f c funcs (a, e')).1 := by
  intro funcs
  induction funcs with
  | nil => intro a e e'; simp [scanEntities]
  | cons ent rest ih =>
    intro a e e'
    simp only [scanEntities]
    split
    · exact ih a e e'
    · split
      · exact ih _ _ _
      · exact ih a e e'

/-- Shape of the dependents produced by the entity scan: new entries lie in
the scanned file, bear an indexed entity's name, and in the seed's own file
only the seed's own name. -/
theorem scanEntities_fst_shape (base : AnalysisSeed) (f c : String) :
    ∀ (funcs : List TopLevelEntity) (a e : List AnalysisSeed) (d : AnalysisSeed),
    d ∈ (scanEntities base f c funcs (a, e)).1 →
    d ∈ a ∨ (d.path = f ∧ (∃ ent ∈ funcs, d.fn = ent.fn) ∧
      (f = base.path → d.fn = base.fn)) := by
  intro funcs
  induction funcs with
  | nil => intro a e d hd; left; simpa [scanEntities] using hd
  | cons ent rest ih =>
    intro a e d hd
    simp only [scanEntities] at hd
    revert hd
    split
    · intro hd
      rcases ih a e d hd with h | ⟨h1, ⟨w, hw, hfn⟩, h3⟩
      · exact Or.inl h
      · exact Or.inr ⟨h1, ⟨w, List.mem_cons_of_mem _ hw, hfn⟩, h3⟩
    · next hskip =>
      split
      · intro hd
        rcases ih _ _ d hd with h | ⟨h1, ⟨w, hw, hfn⟩, h3⟩
        · rcases List.mem_append.mp h with h | h
          · exact Or.inl h
          · have hde : d = AnalysisSeed.mk ent.fn f := by simpa using h
            subst hde
            refine Or.inr ⟨rfl, ⟨ent, List.mem_cons_self _ _, rfl⟩, ?_⟩
            intro hf
            by_contra hne
            exact hskip ⟨hf, hne⟩
        · exact Or.inr ⟨h1, ⟨w, List.mem_cons_of_mem _ hw, hfn⟩, h3⟩
      · intro hd
        rcases ih a e d hd with h | ⟨h1, ⟨w, hw, hfn⟩, h3⟩
        · exact Or.inl h
        · exact Or.inr ⟨h1, ⟨w, List.mem_cons_of_mem _ hw, hfn⟩, h3⟩

/-- Endpoint-list membership survives the re-export branch. -/
theorem reExportBranch_eps_mem (env : AEnv) (b : AnalysisSeed)
    (acc : List AnalysisSeed × List AnalysisSeed) (i : ReExportInfo)
    (x : AnalysisSeed) (hx : x ∈ acc.2) :
    x ∈ (reExportBranch env b acc i).2 := by
  unfold reExportBranch
  split
  · exact hx
  · split
    · split
      · exact hx
      · split
        · exact hx
        · split
          · exact hx
          · dsimp only
            split
            · exact pushEndpoint_mem _ _ _ hx
            · exact hx
    · exact hx

/-- Key-uniqueness of endpoints survives the re-export branch. -/
theorem reExportBranch_eps_nodup (env : AEnv) (b : AnalysisSeed)
    (acc : List AnalysisSeed × List AnalysisSeed) (i : ReExportInfo)
    (hx : epNodup acc.2) : epNodup (reExportBranch env b acc i).2 := by
  unfold reExportBranch
  split
  · exact hx
  · split
    · split
      · exact hx
      · split
        · exact hx
        · split
          · exact hx
          · dsimp only
            split
            · exact pushEndpoint_nodup _ _ hx
            · exact hx
    · exact hx

/-- The dependents produced by the re-export branch do not depend on the
incoming endpoint list. -/
theorem reExportBranch_fst_eps (env : AEnv) (b : AnalysisSeed)
    (a e e' : List AnalysisSeed) (i : ReExportInfo) :
    (reExportBranch env b (a, e) i).1 = (reExportBranch env b (a, e') i).1 := by
  unfold reExportBranch
  split
  · rfl
  · split
    · split
      · rfl
      · split
        · rfl
        · split
          · rfl
          · dsimp only
            split
            · rfl
            · rfl
    · rfl

/-- Shape of the dependents produced by the re-export branch: any new entry
is the seed's own name at the re-exported path, with an indexed entity
backing it. -/
theorem reExportBranch_fst_shape (env : AEnv) (b : AnalysisSeed)
    (a e : List AnalysisSeed) (i : ReExportInfo) (d : AnalysisSeed)
    (hd : d ∈ (reExportBranch env b (a, e) i).1) :
    d ∈ a ∨ (d.fn = b.fn ∧ d.path = i.path ∧ (d.path, d.fn) ∈ uKeys env) := by
  unfold reExportBranch at hd
  revert hd
  split
  · exact fun hd => Or.inl hd
  · next em hem =>
    split
    · split
      · exact fun hd => Or.inl hd
      · next ce hce =>
        split
        · exact fun hd => Or.inl hd
        · split
          · exact fun hd => Or.inl hd
          · dsimp only
            split
            · intro hd
              rcases List.mem_append.mp hd with h | h
              · exact Or.inl h
              · have hde : d = AnalysisSeed.mk ce.fn i.path := by simpa using h
                have hcefn : ce.fn = b.fn := by
                  have := List.find?_some hce
                  simpa using this
                have hempath : em.path = i.path := by
                  have := List.find?_some hem
                  simpa using this
                have hmem : em ∈ env.topEntities := List.mem_of_find?_eq_some hem
                have hcemem : ce ∈ em.funcs := List.mem_of_find?_eq_some hce
                subst hde
                refine Or.inr ⟨hcefn, rfl, ?_⟩
                have := mem_uKeys_of env em ce hmem hcemem
                rwa [hempath] at this
            · exact fun hd => Or.inl hd
    · exact fun hd => Or.inl hd

/-- Endpoint-list membership survives one candidate file. -/
theorem processFile_eps_mem (env : AEnv) (b : AnalysisSeed)
    (acc : List AnalysisSeed × List AnalysisSeed) (f : String)
    (x : AnalysisSeed) (hx : x ∈ acc.2) : x ∈ (processFile env b acc f).2 := by
  unfold processFile
  split
  · exact hx
  · split
    · exact hx
    · dsimp only
      split
      · split
        · exact reExportBranch_eps_mem env b acc _ x hx
        · split
          · exact reExportBranch_eps_mem env b acc _ x hx
          · split
            · exact reExportBranch_eps_mem env b acc _ x hx
            · exact scanEntities_eps_mem b f _ _ _ _ x
                (reExportBranch_eps_mem env b acc _ x hx)
      · split
        · exact hx
        · exact scanEntities_eps_mem b f _ _ _ _ x hx

/-- Key-uniqueness of endpoints survives one candidate file. -/
theorem processFile_eps_nodup (env : AEnv) (b : AnalysisSeed)
    (acc : List AnalysisSeed × List AnalysisSeed) (f : String)
    (hx : epNodup acc.2) : epNodup (processFile env b acc f).2 := by
  unfold processFile
  split
  · exact hx
  · split
    · exact hx
    · dsimp only
      split
      · split
        · exact reExportBranch_eps_nodup env b acc _ hx
        · split
          · exact reExportBranch_eps_nodup env b acc _ hx
          · split
            · exact reExportBranch_eps_nodup env b acc _ hx
            · exact scanEntities_eps_nodup b f _ _ _ _
                (reExportBranch_eps_nodup env b acc _ hx)
      · split
        · exact hx
        · exact scanEntities_eps_nodup b f _ _ _ _ hx

/-- The dependents produced by one candidate file do not depend on the
incoming endpoint list. -/
theorem processFile_fst_eps (env : AEnv) (b : AnalysisSeed)
    (a e e' : List AnalysisSeed) (f : String) :
    (processFile env b (a, e) f).1 = (processFile env b (a, e') f).1 := by
  unfold processFile
  split
  · rfl
  · split
    · rfl
    · dsimp only
      have hreb := reExportBranch_fst_eps env b a e e'
      split
      · next info hinfo =>
        split
        · exact hreb info
        · split
          · exact hreb info
          · split
            · exact hreb info
            · next em hem =>
              have h1 := hreb info
              have h2 : reExportBranch env b (a, e) info =
                  ((reExportBranch env b (a, e) info).1,
                   (reExportBranch env b (a, e) info).2) := rfl
              have h3 : reExportBranch env b (a, e') info =
                  ((reExportBranch env b (a, e') info).1,
                   (reExportBranch env b (a, e') info).2) := rfl
              rw [h2, h3, h1]
              exact scanEntities_fst_eps b f _ em.funcs _ _ _
      · split
        · rfl
        · exact scanEntities_fst_eps b f _ _ a e e'

/-- Shape of the dependents produced by one candidate file: any new entry is
backed by the entity index, and an entry lying in the seed's own file bears
the seed's own name. -/
theorem processFile_fst_shape (env : AEnv) (b : AnalysisSeed)
    (a e : List AnalysisSeed) (f : String) (d : AnalysisSeed)
    (hd : d ∈ (processFile env b (a, e) f).1) :
    d ∈ a ∨ ((d.path, d.fn) ∈ uKeys env ∧ (d.path = b.path → d.fn = b.fn)) := by
  have hreb : ∀ (i : ReExportInfo), i.path = b.path →
      d ∈ (reExportBranch env b (a, e) i).1 →
      d ∈ a ∨ ((d.path, d.fn) ∈ uKeys env ∧ (d.path = b.path → d.fn = b.fn)) := by
    intro i hip hmem
    rcases reExportBranch_fst_shape env b a e i d hmem with h | ⟨h1, h2, h3⟩
    · exact Or.inl h
    · exact Or.inr ⟨h3, fun _ => h1⟩
  have hscan : ∀ (em : FileFunctionsResult),
      env.topEntities.find? (fun m => m.path == f) = some em →
      ∀ (acc1 : List AnalysisSeed × List AnalysisSeed),
      (∀ y, y ∈ acc1.1 →
        y ∈ a ∨ ((y.path, y.fn) ∈ uKeys env ∧ (y.path = b.path → y.fn = b.fn))) →
      ∀ (content : String),
      d ∈ (scanEntities b f content em.funcs acc1).1 →
      d ∈ a ∨ ((d.path, d.fn) ∈ uKeys env ∧ (d.path = b.path → d.fn = b.fn)) := by
    intro em hem acc1 hacc content hmem
    have hempath : em.path = f := by
      have := List.find?_some hem
      simpa using this
    have hemmem : em ∈ env.topEntities := List.mem_of_find?_eq_some hem
    have hp : acc1 = (acc1.1, acc1.2) := rfl
    rw [hp] at hmem
    rcases scanEntities_fst_shape b f content em.funcs acc1.1 acc1.2 d hmem with
      h | ⟨h1, ⟨ent, hent, hfn⟩, h3⟩
    · exact hacc d h
    · refine Or.inr ⟨?_, fun hpb => h3 (h1 ▸ hpb)⟩
      have := mem_uKeys_of env em ent hemmem hent
      rw [hempath] at this
      rw [h1, hfn]
      exact this
  revert hd
  unfold processFile
  split
  · exact fun hd => Or.inl hd
  · split
    · exact fun hd => Or.inl hd
    · dsimp only
      split
      · next info hinfo =>
        split
        · exact hreb info (findReExportedInfo_path env f b.path info hinfo)
        · split
          · exact hreb info (findReExportedInfo_path env f b.path info hinfo)
          · split
            · exact hreb info (findReExportedInfo_path env f b.path info hinfo)
            · next em hem =>
              intro hd
              refine hscan em hem _ ?_ _ hd
              intro y hy
              rcases reExportBranch_fst_shape env b a e info y hy with h | ⟨h1, h2, h3⟩
              · exact Or.inl h
              · exact Or.inr ⟨h3, fun _ => h1⟩
      · split
        · exact fun hd => Or.inl hd
        · next em hem =>
          intro hd
          exact hscan em hem (a, e) (fun y hy => Or.inl hy) _ hd

/-- Endpoint-list membership survives the candidate fold. -/
theorem foldPF_eps_mem (env : AEnv) (b : AnalysisSeed) :
    ∀ (cs : List String) (acc : List AnalysisSeed × List AnalysisSeed)
    (x : AnalysisSeed), x ∈ acc.2 →
    x ∈ (cs.foldl (processFile env b) acc).2 := by
  intro cs
  induction cs with
  | nil => intro acc x hx; simpa using hx
  | cons c rest ih =>
    intro acc x hx
    exact ih _ x (processFile_eps_mem env b acc c x hx)

/-- Key-uniqueness of endpoints survives the candidate fold. -/
theorem foldPF_eps_nodup (env : AEnv) (b : AnalysisSeed) :
    ∀ (cs : List String) (acc : List AnalysisSeed × List AnalysisSeed),
    epNodup acc.2 → epNodup (cs.foldl (processFile env b) acc).2 := by
  intro cs
  induction cs with
  | nil => intro acc hx; simpa using hx
  | cons c rest ih =>
    intro acc hx
    exact ih _ (processFile_eps_nodup env b acc c hx)

/-- The dependents produced by the candidate fold do not depend on the
incoming endpoint list. -/
theorem foldPF_fst_eps (env : AEnv) (b : AnalysisSeed) :
    ∀ (cs : List String) (a e e' : List AnalysisSeed),
    (cs.foldl (processFile env b) (a, e)).1 =
      (cs.foldl (processFile env b) (a, e')).1 := by
  intro cs
  induction cs with
  | nil => intro a er e'; rfl
  | cons c rest ih =>
    intro a er e'
    simp only [List.foldl_cons]
    have h1 : processFile env b (a, er) c =
        ((processFile env b (a, er) c).1, (processFile env b (a, er) c).2) := rfl
    have h2 : processFile env b (a, e') c =
        ((processFile env b (a, e') c).1, (processFile env b (a, e') c).2) := rfl
    rw [h1, h2, processFile_fst_eps env b a er e' c]
    exact ih _ _ _

/-- Shape of the dependents produced by the candidate fold. -/
theorem foldPF_fst_shape (env : AEnv) (b : AnalysisSeed) :
    ∀ (cs : List String) (acc : List AnalysisSeed × List AnalysisSeed)
    (d : AnalysisSeed), d ∈ (cs.foldl (processFile env b) acc).1 →
    (∀ y, y ∈ acc.1 →
      y ∈ [] ∨ ((y.path, y.fn) ∈ uKeys env ∧ (y.path = b.path → y.fn = b.fn))) →
    (d.path, d.fn) ∈ uKeys env ∧ (d.path = b.path → d.fn = b.fn) := by
  intro cs
  induction cs with
  | nil =>
    intro acc d hd hacc
    rcases hacc d hd with h | h
    · cases h
    · exact h
  | cons c rest ih =>
    intro acc d hd hacc
    refine ih _ d hd ?_
    intro y hy
    have hp : acc = (acc.1, acc.2) := rfl
    rw [hp] at hy
    rcases processFile_fst_shape env b acc.1 acc.2 c y hy with h | h
    · exact hacc y h
    · exact Or.inr h

/-- Endpoint-list membership survives `findDirectDependents`. -/
theorem findDirectDependents_snd_mem (env : AEnv) (b : AnalysisSeed)
    (eps : List AnalysisSeed) (x : AnalysisSeed) (hx : x ∈ eps) :
    x ∈ (findDirectDependents env b eps).2 := by
  unfold findDirectDependents
  exact foldPF_eps_mem env b _ ([], eps) x hx

/-- Key-uniqueness of endpoints survives `findDirectDependents`. -/
theorem findDirectDependents_snd_nodup (env : AEnv) (b : AnalysisSeed)
    (eps : List AnalysisSeed) (hx : epNodup eps) :
    epNodup (findDirectDependents env b eps).2 := by
  unfold findDirectDependents
  exact foldPF_eps_nodup env b _ ([], eps) hx

/-- The dependents list is independent of the endpoint state. -/
theorem findDirectDependents_fst_eps (env : AEnv) (b : AnalysisSeed)
    (eps : List AnalysisSeed) :
    (findDirectDependents env b eps).1 = directDeps env b := by
  unfold directDeps findDirectDependents
  dsimp only
  rw [foldPF_fst_eps env b _ [] eps []]

/-- Every dependent is an indexed declaration, and a dependent in the seed's
own file is the seed itself. -/
theorem findDirectDependents_deps (env : AEnv) (b : AnalysisSeed)
    (eps : List AnalysisSeed) (d : AnalysisSeed)
    (hd : d ∈ (findDirectDependents env b eps).1) :
    (d.path, d.fn) ∈ uKeys env ∧ (d.path = b.path → d.fn = b.fn) := by
  unfold findDirectDependents at hd
  dsimp only at hd
  have hd' := mem_of_mem_dedupSeeds d [] _ hd
  refine foldPF_fst_shape env b _ ([], eps) d hd' ?_
  intro y hy
  cases hy

/-- DONE records carry exactly the recomputable direct-dependent list. -/
def resOK (env : AEnv) (st : AState) : Prop :=
  ∀ k r, clLookup st.checklist k = some r → r.checked = true →
    r.result = directDeps env (AnalysisSeed.mk r.fn r.path)

/-- The state-transition invariant of one analyzer call: endpoints only
grow (and stay key-unique), checklist keys persist, DONE records are
immutable, no new IN_PROGRESS record survives, and DONE results stay
correct. -/
def StepInv (env : AEnv) (st st' : AState) : Prop :=
  (∀ x, x ∈ st.endPoints → x ∈ st'.endPoints) ∧
  (∀ k, (clLookup st.checklist k).isSome → (clLookup st'.checklist k).isSome) ∧
  (∀ k r, clLookup st.checklist k = some r → r.checked = true →
    clLookup st'.checklist k = some r) ∧
  (∀ k r, clLookup st'.checklist k = some r → r.checked = false →
    clLookup st.checklist k = some r) ∧
  (epNodup st.endPoints → epNodup st'.endPoints) ∧
  (resOK env st → resOK env st')

/-- `StepInv` is reflexive. -/
theorem stepInv_refl (env : AEnv) (st : AState) : StepInv env st st :=
  ⟨fun _ hx => hx, fun _ h => h, fun _ _ h _ => h, fun _ _ h _ => h,
    fun h => h, fun h => h⟩

/-- `StepInv` composes. -/
theorem stepInv_trans (env : AEnv) (s1 s2 s3 : AState)
    (h12 : StepInv env s1 s2) (h23 : StepInv env s2 s3) : StepInv env s1 s3 := by
  obtain ⟨a12, b12, c12, d12, e12, f12⟩ := h12
  obtain ⟨a23, b23, c23, d23, e23, f23⟩ := h23
  exact ⟨fun x hx => a23 x (a12 x hx),
    fun k h => b23 k (b12 k h),
    fun k r h hc => c23 k r (c12 k r h hc) hc,
    fun k r h hc => d12 k r (d23 k r h hc) hc,
    fun h => e23 (e12 h),
    fun h => f23 (f12 h)⟩

/-- The dependent loop preserves the invariant when every recursive call
does. -/
theorem recAnalyzeStep_inv (env : AEnv) (f : Nat)
    (hrec : ∀ b st st', recAnalyze env f b st = some st' → StepInv env st st') :
    ∀ (ds : List AnalysisSeed) (st st' : AState),
    recAnalyzeStep (recAnalyze env f) ds st = some st' → StepInv env st st' := by
  intro ds
  induction ds with
  | nil =>
    intro st st' h
    cases h
    exact stepInv_refl env st
  | cons d rest ih =>
    intro st st' h
    simp only [recAnalyzeStep] at h
    cases hr : recAnalyze env f d st with
    | none => rw [hr] at h; exact Option.noConfusion h
    | some stm =>
      rw [hr] at h
      exact stepInv_trans env st stm st' (hrec d st stm hr) (ih stm st' h)

/-- Every analyzer call satisfies the transition invariant. -/
theorem recAnalyze_inv (env : AEnv) :
    ∀ (fuel : Nat) (b : AnalysisSeed) (st st' : AState),
    recAnalyze env fuel b st = some st' → StepInv env st st' := by
  intro fuel
  induction fuel with
  | zero => intro b st st' h; exact Option.noConfusion h
  | succ f ih =>
    intro b st st' h
    simp only [recAnalyze] at h
    cases hlk : clLookup st.checklist (seedKey b) with
    | some r =>
      rw [hlk] at h
      cases h
      exact stepInv_refl env st
    | none =>
      rw [hlk] at h
      dsimp only at h
      cases hstep : recAnalyzeStep (recAnalyze env f)
          (findDirectDependents env b st.endPoints).1
          ⟨clSet st.checklist (seedKey b) ⟨b.fn, b.path, false, []⟩,
            (findDirectDependents env b st.endPoints).2⟩ with
      | none => rw [hstep] at h; exact Option.noConfusion h
      | some st3 =>
        rw [hstep] at h
        cases h
        have hmid := recAnalyzeStep_inv env f ih _ _ _ hstep
        obtain ⟨m1, m2, m3, m4, m5, m6⟩ := hmid
        have hkeyb : ∀ (k : AKey) (r : AnalysisResult),
            clLookup st.checklist k = some r → k ≠ seedKey b := by
          intro k r hk hke
          rw [hke, hlk] at hk
          exact Option.noConfusion hk
        refine ⟨?_, ?_, ?_, ?_, ?_, ?_⟩
        · intro x hx
          exact m1 x (findDirectDependents_snd_mem env b st.endPoints x hx)
        · intro k hk
          have h1 : (clLookup (clSet st.checklist (seedKey b)
              ⟨b.fn, b.path, false, []⟩) k).isSome :=
            clLookup_clSet_isSome _ _ _ _ hk
          have h3 := m2 k h1
          exact clLookup_clSet_isSome _ _ _ _ h3
        · intro k r hk hc
          have hne := hkeyb k r hk
          have h1 : clLookup (clSet st.checklist (seedKey b)
              ⟨b.fn, b.path, false, []⟩) k = some r := by
            rw [clLookup_clSet, if_neg hne]
            exact hk
          have h3 := m3 k r h1 hc
          rw [clLookup_clSet, if_neg hne]
          exact h3
        · intro k r hk hc
          rw [clLookup_clSet] at hk
          by_cases hke : k = seedKey b
          · rw [if_pos hke] at hk
            cases hk
            exact absurd hc (by simp)
          · rw [if_neg hke] at hk
            have h3 := m4 k r hk hc
            rw [clLookup_clSet, if_neg hke] at h3
            exact h3
        · intro hnd
          exact m5 (findDirectDependents_snd_nodup env b st.endPoints hnd)
        · intro hres
          have hres1 : resOK env ⟨clSet st.checklist (seedKey b)
              ⟨b.fn, b.path, false, []⟩,
              (findDirectDependents env b st.endPoints).2⟩ := by
            intro k r hk hc
            simp only at hk
            rw [clLookup_clSet] at hk
            by_cases hke : k = seedKey b
            · rw [if_pos hke] at hk
              cases hk
              exact absurd hc (by simp)
            · rw [if_neg hke] at hk
              exact hres k r hk hc
          have hres3 := m6 hres1
          intro k r hk hc
          simp only at hk
          rw [clLookup_clSet] at hk
          by_cases hke : k = seedKey b
          · rw [if_pos hke] at hk
            cases hk
            simp only
            rw [findDirectDependents_fst_eps env b st.endPoints]
          · rw [if_neg hke] at hk
            exact hres3 k r hk hc

/-- Checklist growth can only shrink the missing-key count. -/
theorem missingCount_mono (env : AEnv) (st st' : AState)
    (h : ∀ k, (clLookup st.checklist k).isSome → (clLookup st'.checklist k).isSome) :
    missingCount env st' ≤ missingCount env st := by
  unfold missingCount
  apply filter_length_mono
  intro k hk
  by_cases hs : (clLookup st.checklist k).isSome
  · have h2 := h k hs
    cases hx : clLookup st'.checklist k with
    | none => rw [hx] at h2; exact absurd h2 (by simp)
    | some v => rw [hx] at hk; exact absurd hk (by simp)
  · cases hx : clLookup st.checklist k with
    | none => simp
    | some v => rw [hx] at hs; exact absurd (by simp) hs

/-- Inserting a record never raises the missing-key count. -/
theorem missingCount_clSet_le (env : AEnv) (st : AState)
    (eps : List AnalysisSeed) (k : AKey) (v : AnalysisResult) :
    missingCount env ⟨clSet st.checklist k v, eps⟩ ≤ missingCount env st := by
  apply missingCount_mono
  intro q hq
  exact clLookup_clSet_isSome _ _ _ _ hq

/-- Inserting a missing universe key strictly lowers the missing-key
count. -/
theorem missingCount_clSet_lt (env : AEnv) (st : AState)
    (eps : List AnalysisSeed) (k : AKey) (v : AnalysisResult)
    (hk : k ∈ uKeys env) (habs : clLookup st.checklist k = none) :
    missingCount env ⟨clSet st.checklist k v, eps⟩ < missingCount env st := by
  unfold missingCount
  refine filter_length_lt _ _ _ ?_ k hk ?_ ?_
  · intro q hq
    by_cases hs : (clLookup st.checklist q).isSome
    · have h2 := clLookup_clSet_isSome st.checklist k v q hs
      cases hx : clLookup (clSet st.checklist k v) q with
      | none => rw [hx] at h2; exact absurd h2 (by simp)
      | some w => rw [hx] at hq; exact absurd hq (by simp)
    · cases hx : clLookup st.checklist q with
      | none => simp
      | some w => rw [hx] at hs; exact absurd (by simp) hs
  · show (clLookup (clSet st.checklist k v) k).isNone = false
    rw [clLookup_clSet, if_pos rfl]
    rfl
  · show (clLookup st.checklist k).isNone = true
    rw [habs]
    rfl

/-- The dependent loop never exhausts fuel when every recursive call with
enough fuel succeeds. -/
theorem recAnalyzeStep_term (env : AEnv) (f : Nat)
    (hterm : ∀ b st, seedKey b ∈ uKeys env → missingCount env st < f →
      (recAnalyze env f b st).isSome) :
    ∀ (ds : List AnalysisSeed) (st : AState),
    (∀ d ∈ ds, seedKey d ∈ uKeys env) → missingCount env st < f →
    (recAnalyzeStep (recAnalyze env f) ds st).isSome := by
  intro ds
  induction ds with
  | nil => intro st _ _; simp [recAnalyzeStep]
  | cons d rest ih =>
    intro st hds hm
    have h1 := hterm d st (hds d (List.mem_cons_self _ _)) hm
    cases hr : recAnalyze env f d st with
    | none => rw [hr] at h1; exact absurd h1 (by simp)
    | some stm =>
      have hmono := (recAnalyze_inv env f d st stm hr).2.1
      have h2 := ih stm (fun x hx => hds x (List.mem_cons_of_mem _ hx))
        (lt_of_le_of_lt (missingCount_mono env st stm hmono) hm)
      simp only [recAnalyzeStep, hr]
      exact h2

/-- Controlled one-step unfolding of `recAnalyze` at positive fuel. -/
theorem recAnalyze_succ (env : AEnv) (f : Nat) (b : AnalysisSeed) (st : AState) :
    recAnalyze env (Nat.succ f) b st =
    match clLookup st.checklist (seedKey b) with
    | some _ => some st
    | none =>
      match recAnalyzeStep (recAnalyze env f)
          (findDirectDependents env b st.endPoints).1
          ⟨clSet st.checklist (seedKey b) ⟨b.fn, b.path, false, []⟩,
            (findDirectDependents env b st.endPoints).2⟩ with
      | none => none
      | some st3 =>
        some ⟨clSet st3.checklist (seedKey b) ⟨b.fn, b.path, true,
          (findDirectDependents env b st.endPoints).1⟩, st3.endPoints⟩ := rfl

/-- Sufficient fuel for a universe seed: the number of missing universe
keys. -/
theorem recAnalyze_term (env : AEnv) :
    ∀ (fuel : Nat) (b : AnalysisSeed) (st : AState),
    seedKey b ∈ uKeys env → missingCount env st < fuel →
    (recAnalyze env fuel b st).isSome := by
  intro fuel
  induction fuel with
  | zero => intro b st _ hm; exact absurd hm (by omega)
  | succ f ih =>
    intro b st hb hm
    rw [recAnalyze_succ]
    cases hlk : clLookup st.checklist (seedKey b) with
    | some r => simp
    | none =>
      dsimp only
      have hlt : missingCount env ⟨clSet st.checklist (seedKey b)
          ⟨b.fn, b.path, false, []⟩,
          (findDirectDependents env b st.endPoints).2⟩ < f := by
        have h1 := missingCount_clSet_lt env st
          (findDirectDependents env b st.endPoints).2 (seedKey b)
          ⟨b.fn, b.path, false, []⟩ hb hlk
        omega
      have hstep := recAnalyzeStep_term env f ih
        (findDirectDependents env b st.endPoints).1
        ⟨clSet st.checklist (seedKey b) ⟨b.fn, b.path, false, []⟩,
          (findDirectDependents env b st.endPoints).2⟩
        (fun d hd => (findDirectDependents_deps env b st.endPoints d hd).1) hlt
      cases hs : recAnalyzeStep (recAnalyze env f)
          (findDirectDependents env b st.endPoints).1
          ⟨clSet st.checklist (seedKey b) ⟨b.fn, b.path, false, []⟩,
            (findDirectDependents env b st.endPoints).2⟩ with
      | none => rw [hs] at hstep; exact absurd hstep (by simp)
      | some st3 => simp [hs]

/-- `missingCount st + 2` fuel always suffices, for any seed. -/
theorem recAnalyze_isSome_of_fuel (env : AEnv) (b : AnalysisSeed) (st : AState) :
    (recAnalyze env (missingCount env st + 2) b st).isSome := by
  show (recAnalyze env (Nat.succ (missingCount env st + 1)) b st).isSome
  rw [recAnalyze_succ]
  cases hlk : clLookup st.checklist (seedKey b) with
  | some r => simp
  | none =>
    dsimp only
    have hle := missingCount_clSet_le env st
      (findDirectDependents env b st.endPoints).2 (seedKey b)
      ⟨b.fn, b.path, false, []⟩
    have hlt : missingCount env ⟨clSet st.checklist (seedKey b)
        ⟨b.fn, b.path, false, []⟩,
        (findDirectDependents env b st.endPoints).2⟩ <
        missingCount env st + 1 := by omega
    have hstep := recAnalyzeStep_term env (missingCount env st + 1)
      (fun b' st' hb' hm' => recAnalyze_term env (missingCount env st + 1) b' st' hb' hm')
      (findDirectDependents env b st.endPoints).1
      ⟨clSet st.checklist (seedKey b) ⟨b.fn, b.path, false, []⟩,
        (findDirectDependents env b st.endPoints).2⟩
      (fun d hd => (findDirectDependents_deps env b st.endPoints d hd).1) hlt
    cases hs : recAnalyzeStep (recAnalyze env (missingCount env st + 1))
        (findDirectDependents env b st.endPoints).1
        ⟨clSet st.checklist (seedKey b) ⟨b.fn, b.path, false, []⟩,
          (findDirectDependents env b st.endPoints).2⟩ with
    | none => rw [hs] at hstep; exact absurd hstep (by simp)
    | some st3 => simp [hs]

/-- One driver step satisfies the transition invariant. -/
theorem runOne_inv (env : AEnv) (st : AState) (b : AnalysisSeed) :
    StepInv env st (runOne env st b) := by
  unfold runOne
  cases hr : recAnalyze env (missingCount env st + 2) b st with
  | none => exact stepInv_refl env st
  | some st' => exact recAnalyze_inv env _ b st st' hr

/-- The driver fold satisfies the transition invariant. -/
theorem runFold_inv (env : AEnv) :
    ∀ (seeds : List AnalysisSeed) (st : AState),
    StepInv env st (seeds.foldl (runOne env) st) := by
  intro seeds
  induction seeds with
  | nil => intro st; exact stepInv_refl env st
  | cons s rest ih =>
    intro st
    exact stepInv_trans env st (runOne env st s) _ (runOne_inv env st s) (ih _)

/-- Appending one seed to the run continues from the previous state. -/
theorem runAnalysis_append (env : AEnv) (seeds : List AnalysisSeed)
    (s : AnalysisSeed) :
    runAnalysis env (seeds ++ [s]) = runOne env (runAnalysis env seeds) s := by
  simp [runAnalysis, List.foldl_append]

/-- A driver step leaves no IN_PROGRESS record behind. -/
theorem runOne_allDone (env : AEnv) (st : AState) (b : AnalysisSeed)
    (h : ∀ k r, clLookup st.checklist k = some r → r.checked = true) :
    ∀ k r, clLookup (runOne env st b).checklist k = some r →
      r.checked = true := by
  intro k r hk
  cases hc : r.checked with
  | true => rfl
  | false =>
    have h4 := (runOne_inv env st b).2.2.2.1 k r hk hc
    have h5 := h k r h4
    exact Bool.noConfusion (h5.symm.trans hc)

/-! ## Claims C1, C2, C7, C8, C10 -/

/-- Single-file project: declarations `A` and `B` whose blocks contain each
other's names as literal substrings. -/
def c1Content : String := "const A = B2 + 1;\nconst B = A2 + 1;\n"

/-- Analyzer environment for the same-file mutual-reference scenario. -/
def c1Env : AEnv := {
  files := ["f.ts"]
  specsOf := fun _ => some []
  exportDecls := fun _ => []
  fileContent := fun p => if p = "f.ts" then some c1Content else none
  topEntities := [⟨"f.ts", [⟨"A", 0⟩, ⟨"B", 18⟩]⟩] }

/-- Claim C1 counterexample: blocks `A` and `B` of the same file do contain
each other's names (the claim's premise holds), yet analysis seeded at `A`
yields no dependent `B` and never creates a record for `B` — because the
own-file loop skips every declaration other than the seed's own
(`currentEntity.fn !== baseData.fn → continue`). -/
theorem c1_counterexample :
    containsSub (substrJs c1Content 0 18).data "B".data = true ∧
    containsSub (substrJs c1Content 18 c1Content.data.length).data "A".data = true ∧
    decide (AnalysisSeed.mk "B" "f.ts" ∈
      (findDirectDependents c1Env ⟨"A", "f.ts"⟩ []).1) = false ∧
    clLookup (runAnalysis c1Env [⟨"A", "f.ts"⟩]).checklist ("f.ts", "B") =
      none := by
  decide

/-- Claim C1 (amended): the direct-dependent computation examines the seed's
own file as a candidate, but within that file tests ONLY the seed's own
declaration (all other same-file declarations are skipped) — so every
reported dependent lying in the seed's file is the seed itself; for
same-file mutually referencing declarations `A` and `B`, analysis from
either seed terminates but does not report the other. -/
theorem c1_own_file_amended :
    (∀ (env : AEnv) (b : AnalysisSeed) (eps : List AnalysisSeed)
      (d : AnalysisSeed), d ∈ (findDirectDependents env b eps).1 →
      d.path = b.path → d.fn = b.fn) ∧
    clLookup (runAnalysis c1Env [⟨"A", "f.ts"⟩]).checklist ("f.ts", "B") =
      none ∧
    clLookup (runAnalysis c1Env [⟨"B", "f.ts"⟩]).checklist ("f.ts", "A") =
      none ∧
    (recAnalyze c1Env (missingCount c1Env ⟨[], []⟩ + 2)
      ⟨"A", "f.ts"⟩ ⟨[], []⟩).isSome = true := by
  refine ⟨?_, by decide, by decide, by decide⟩
  intro env b eps d hd hp
  exact (findDirectDependents_deps env b eps d hd).2 hp

/-- Witness for C1's general clause at a concrete dependent in the seed's
own file. -/
theorem c1_own_file_amended_witness :
    AnalysisSeed.mk "A" "f.ts" ∈
      (findDirectDependents c1Env ⟨"A", "f.ts"⟩ []).1 ∧
    (AnalysisSeed.mk "A" "f.ts").fn = "A" :=
  ⟨by decide,
    c1_own_file_amended.1 c1Env ⟨"A", "f.ts"⟩ [] ⟨"A", "f.ts"⟩ (by decide) rfl⟩

/-- `a.ts` of the re-export scenario: `foo` is an `onCall` endpoint, `baz`
is a plain constant. -/
def c2AContent : String := "const foo = onCall(h);\nconst baz = 1;\n"

/-- Analyzer environment for the re-export scenario: `b.ts` re-exports
`foo` by name from `a.ts`, `c.ts` re-exports `a.ts` wholesale. -/
def c2Env : AEnv := {
  files := ["a.ts", "b.ts", "c.ts"]
  specsOf := fun p => if p = "a.ts" then some [] else some ["./a"]
  exportDecls := fun p =>
    if p = "b.ts" then [⟨"./a", some ["foo"]⟩]
    else if p = "c.ts" then [⟨"./a", none⟩]
    else []
  fileContent := fun p =>
    if p = "a.ts" then some c2AContent
    else if p = "b.ts" then some "export named from a\n"
    else if p = "c.ts" then some "export star from a\n"
    else none
  topEntities := [⟨"a.ts", [⟨"foo", 0⟩, ⟨"baz", 23⟩]⟩, ⟨"b.ts", []⟩,
    ⟨"c.ts", []⟩] }

/-- Claim C2 counterexample: `c.ts` wildcard-re-exports `a.ts`, yet the seed
`baz` — whose block is not a trigger endpoint — produces NO dependent
through the wildcard re-exporting candidate, refuting "a wildcard re-export
propagates any seed of that file": propagation is additionally gated on the
seed's block classifying as an endpoint. -/
theorem c2_counterexample :
    findReExportedInfo c2Env "c.ts" "a.ts" = some ⟨"a.ts", none⟩ ∧
    (getEndpointInfo (substrJs c2AContent 23 c2AContent.data.length)).isEndpoint
      = false ∧
    processFile c2Env ⟨"baz", "a.ts"⟩ ([], []) "c.ts" = ([], []) ∧
    (runAnalysis c2Env [⟨"baz", "a.ts"⟩]).endPoints = [] := by
  decide

/-- Claim C2 (amended): the re-export is resolved before any dependent is
created; a named re-export whose list does not contain the seed's name
creates no dependent, and any dependent the re-export branch creates bears
the seed's own name — so a seed for `baz`, where only `foo` is re-exported
by name, never marks `foo` affected through that named re-exporter; a
wildcard re-export propagates a seed exactly when the seed's own block
classifies as a trigger endpoint, as `foo` does: it is marked affected via
both the named and the wildcard re-exporter. -/
theorem c2_reexport_amended :
    (∀ (env : AEnv) (b : AnalysisSeed) (acc : List AnalysisSeed × List AnalysisSeed)
      (i : ReExportInfo) (l : List String), i.exportedNames = some l →
      b.fn ∉ l → reExportBranch env b acc i = acc) ∧
    (∀ (env : AEnv) (b : AnalysisSeed) (a e : List AnalysisSeed)
      (i : ReExportInfo) (d : AnalysisSeed),
      d ∈ (reExportBranch env b (a, e) i).1 → d ∈ a ∨ d.fn = b.fn) ∧
    (∀ fn, shouldIncludeFn none fn = true) ∧
    processFile c2Env ⟨"foo", "a.ts"⟩ ([], []) "b.ts" =
      ([⟨"foo", "a.ts"⟩], [⟨"foo", "a.ts"⟩]) ∧
    processFile c2Env ⟨"foo", "a.ts"⟩ ([], []) "c.ts" =
      ([⟨"foo", "a.ts"⟩], [⟨"foo", "a.ts"⟩]) ∧
    (runAnalysis c2Env [⟨"foo", "a.ts"⟩]).endPoints = [⟨"foo", "a.ts"⟩] ∧
    (runAnalysis c2Env [⟨"baz", "a.ts"⟩]).endPoints = [] := by
  refine ⟨?_, ?_, fun fn => rfl, by decide, by decide, by decide, by decide⟩
  · intro env b acc i l hl hnot
    have hfalse : shouldIncludeFn i.exportedNames b.fn = false := by
      rw [hl]
      simpa [shouldIncludeFn] using hnot
    unfold reExportBranch
    split
    · rfl
    · rw [hfalse]
      simp
  · intro env b a e i d hd
    rcases reExportBranch_fst_shape env b a e i d hd with h | ⟨h1, _, _⟩
    · exact Or.inl h
    · exact Or.inr h1

/-- Witness for C2's general clauses: the named re-exporter `b.ts` with the
non-exported seed `baz` creates nothing. -/
theorem c2_reexport_amended_witness :
    reExportBranch c2Env ⟨"baz", "a.ts"⟩ ([], []) ⟨"a.ts", some ["foo"]⟩ =
      ([], []) :=
  c2_reexport_amended.1 c2Env ⟨"baz", "a.ts"⟩ ([], [])
    ⟨"a.ts", some ["foo"]⟩ ["foo"] rfl (by decide)

/-- Claim C7: the endpoint set only grows — no analyzer call removes an
endpoint, the accumulated list stays deduplicated by (path, fn), and running
the analysis over a seed list extended by one seed yields a superset of the
endpoints of the original run. -/
theorem c7_endpoints_monotone :
    (∀ (env : AEnv) (fuel : Nat) (b : AnalysisSeed) (st st' : AState),
      recAnalyze env fuel b st = some st' →
      ∀ x ∈ st.endPoints, x ∈ st'.endPoints) ∧
    (∀ (env : AEnv) (seeds : List AnalysisSeed),
      epNodup ((runAnalysis env seeds).endPoints)) ∧
    (∀ (env : AEnv) (seeds : List AnalysisSeed) (s : AnalysisSeed)
      (x : AnalysisSeed), x ∈ (runAnalysis env seeds).endPoints →
      x ∈ (runAnalysis env (seeds ++ [s])).endPoints) := by
  refine ⟨?_, ?_, ?_⟩
  · intro env fuel b st st' h x hx
    exact (recAnalyze_inv env fuel b st st' h).1 x hx
  · intro env seeds
    have h0 : epNodup (AState.mk [] []).endPoints := by
      simp [epNodup, epKeys]
    exact (runFold_inv env seeds ⟨[], []⟩).2.2.2.2.1 h0
  · intro env seeds s x hx
    rw [runAnalysis_append]
    exact (runOne_inv env (runAnalysis env seeds) s).1 x hx

/-- Witness for C7 at the concrete re-export project: extending the `foo`
run by the `baz` seed keeps the `foo` endpoint. -/
theorem c7_endpoints_monotone_witness :
    AnalysisSeed.mk "foo" "a.ts" ∈
      (runAnalysis c2Env ([⟨"foo", "a.ts"⟩] ++ [⟨"baz", "a.ts"⟩])).endPoints :=
  c7_endpoints_monotone.2.2 c2Env [⟨"foo", "a.ts"⟩] ⟨"baz", "a.ts"⟩
    ⟨"foo", "a.ts"⟩ (by decide)

/-- Claim C8: the recursive analysis terminates for every seed and state —
fuel `missingCount + 2` (the finite universe of unvisited declarations plus
the call itself) always suffices; a key already present returns the state
unchanged immediately, whether DONE or IN_PROGRESS (the cycle case, no
recursion); and DONE records are never touched again. -/
theorem c8_termination_state_machine :
    (∀ (env : AEnv) (b : AnalysisSeed) (st : AState),
      (recAnalyze env (missingCount env st + 2) b st).isSome = true) ∧
    (∀ (env : AEnv) (fuel : Nat) (b : AnalysisSeed) (st : AState)
      (r : AnalysisResult), clLookup st.checklist (seedKey b) = some r →
      recAnalyze env (fuel + 1) b st = some st) ∧
    (∀ (env : AEnv) (fuel : Nat) (b : AnalysisSeed) (st st' : AState)
      (k : AKey) (r : AnalysisResult), recAnalyze env fuel b st = some st' →
      clLookup st.checklist k = some r → r.checked = true →
      clLookup st'.checklist k = some r) := by
  refine ⟨?_, ?_, ?_⟩
  · intro env b st
    exact recAnalyze_isSome_of_fuel env b st
  · intro env fuel b st r h
    rw [recAnalyze_succ, h]
  · intro env fuel b st st' k r h hk hc
    exact (recAnalyze_inv env fuel b st st' h).2.2.1 k r hk hc

/-- Witness for C8: termination fuel and the immediate return on a present
(IN_PROGRESS) key, at concrete inputs. -/
theorem c8_termination_state_machine_witness :
    (recAnalyze c1Env (missingCount c1Env ⟨[], []⟩ + 2)
      ⟨"A", "f.ts"⟩ ⟨[], []⟩).isSome = true ∧
    recAnalyze c1Env 1 ⟨"A", "f.ts"⟩
      ⟨[(("f.ts", "A"), ⟨"A", "f.ts", false, []⟩)], []⟩ =
      some ⟨[(("f.ts", "A"), ⟨"A", "f.ts", false, []⟩)], []⟩ :=
  ⟨c8_termination_state_machine.1 c1Env ⟨"A", "f.ts"⟩ ⟨[], []⟩,
    c8_termination_state_machine.2.1 c1Env 0 ⟨"A", "f.ts"⟩
      ⟨[(("f.ts", "A"), ⟨"A", "f.ts", false, []⟩)], []⟩
      ⟨"A", "f.ts", false, []⟩ rfl⟩

/-- Claim C10: after the driver's top-level calls return, every checklist
record is DONE (`checked = true`) and carries exactly the direct-dependent
list recomputable for its key; no record remains IN_PROGRESS even when
cycles were short-circuited. -/
theorem c10_checklist_all_done :
    ∀ (env : AEnv) (seeds : List AnalysisSeed) (k : AKey)
    (r : AnalysisResult),
    clLookup (runAnalysis env seeds).checklist k = some r →
    r.checked = true ∧ r.result = directDeps env (AnalysisSeed.mk r.fn r.path) := by
  intro env seeds
  suffices h : ∀ (sts : List AnalysisSeed) (st : AState),
      (∀ k r, clLookup st.checklist k = some r → r.checked = true) →
      resOK env st →
      (∀ k r, clLookup (sts.foldl (runOne env) st).checklist k = some r →
        r.checked = true) ∧ resOK env (sts.foldl (runOne env) st) by
    intro k r hk
    obtain ⟨hall, hres⟩ := h seeds ⟨[], []⟩
      (fun k r hk => Option.noConfusion hk)
      (fun k r hk => Option.noConfusion hk)
    exact ⟨hall k r hk, hres k r hk (hall k r hk)⟩
  intro sts
  induction sts with
  | nil => intro st h1 h2; exact ⟨h1, h2⟩
  | cons s rest ih =>
    intro st h1 h2
    exact ih (runOne env st s) (runOne_allDone env st s h1)
      ((runOne_inv env st s).2.2.2.2.2 h2)

/-- Witness for C10 at the concrete same-file project. -/
theorem c10_checklist_all_done_witness :
    clLookup (runAnalysis c1Env [⟨"A", "f.ts"⟩]).checklist ("f.ts", "A") =
      some ⟨"A", "f.ts", true, [⟨"A", "f.ts"⟩]⟩ ∧
    (true : Bool) = true ∧
    [AnalysisSeed.mk "A" "f.ts"] = directDeps c1Env ⟨"A", "f.ts"⟩ :=
  ⟨by decide,
    (c10_checklist_all_done c1Env [⟨"A", "f.ts"⟩] ("f.ts", "A")
      ⟨"A", "f.ts", true, [⟨"A", "f.ts"⟩]⟩ (by decide)).1,
    (c10_checklist_all_done c1Env [⟨"A", "f.ts"⟩] ("f.ts", "A")
      ⟨"A", "f.ts", true, [⟨"A", "f.ts"⟩]⟩ (by decide)).2⟩

/-! ## DeploymentNamer: `DeployMaker` (core/deploy-maker) and
`EndPointLister._buildDeploymentMap` (core/endpoint-lister)

The entrypoint file's top-level statements are abstracted to the three
shapes the two builders inspect: `exports.GROUP = require(path)`,
`export * from path`, and anything else. -/

/-- A top-level statement of the entrypoint aggregation file. -/
inductive EpStmt where
  | exportsRequire (group reqPath : String)
  | exportStarFrom (spec : String)
  | other
deriving DecidableEq, Repr

/-- Does the statement have the `exports.GROUP = require(path)` shape? -/
def isExportsRequire : EpStmt → Bool
  | .exportsRequire _ _ => true
  | _ => false

/-- `path.resolve(parsedPath.dir, parsedPath.name)`: the path without its
last extension. -/
def pathWithoutExt (p : String) : String :=
  pathJoin (dirnameOf p) (parseNameOf p)

/-- String-map `set` with JS `Map` insertion-order semantics. -/
def smSet : List (String × String) → String → String → List (String × String)
  | [], k, v => [(k, v)]
  | (k0, v0) :: rest, k, v =>
    if k0 = k then (k, v) :: rest else (k0, v0) :: smSet rest k v

/-- String-map `get`. -/
def smGet : List (String × String) → String → Option String
  | [], _ => none
  | (k0, v0) :: rest, k => if k0 = k then some v0 else smGet rest k

/-- `DeployMaker.buildDeploymentMap`: only `exports.GROUP = require(path)`
statements register, keyed by the extension-stripped resolved path (`.ts`
appended when absent, then stripped); `export * from` is intentionally left
unregistered. -/
def dmBuildDeploymentMap (indexDir : String) (stmts : List EpStmt) :
    List (String × String) :=
  stmts.foldl
    (fun m stmt =>
      match stmt with
      | .exportsRequire groupName requirePath =>
        let absolutePath := pathJoin indexDir requirePath
        let absolutePath :=
          if endsWithStr ".ts" absolutePath then absolutePath
          else absolutePath ++ ".ts"
        smSet m (pathWithoutExt absolutePath) groupName
      | .exportStarFrom _ => m
      | .other => m)
    []

/-- The per-endpoint body of `DeployMaker.getDeployNames`: entrypoint-file
endpoints keep their bare name, prefix-map hits become `group-name`,
everything else stays bare. -/
def dmDeployNameFor (indexTsPath : String) (m : List (String × String))
    (endpoint : AnalysisSeed) : String :=
  if endpoint.path = indexTsPath then endpoint.fn
  else
    match smGet m (pathWithoutExt endpoint.path) with
    | some groupName => groupName ++ "-" ++ endpoint.fn
    | none => endpoint.fn

/-- `DeployMaker.getDeployNames`: the set accumulator collapses duplicate
names, keeping first-insertion order. -/
def dmGetDeployNames (indexTsPath : String) (m : List (String × String))
    (endpoints : List AnalysisSeed) : List String :=
  endpoints.foldl
    (fun acc ep =>
      let n := dmDeployNameFor indexTsPath m ep
      if acc.contains n then acc else acc ++ [n])
    []

/-- `EndPointLister._buildDeploymentMap`: `exports.GROUP = require(path)`
registers the resolved path; `export * from path` ALSO registers, with the
specifier's basename as group prefix. -/
def eplBuildDeploymentMap (indexDir : String) (stmts : List EpStmt) :
    List (String × String) :=
  stmts.foldl
    (fun m stmt =>
      match stmt with
      | .exportsRequire groupName requirePath =>
        smSet m (pathJoin indexDir requirePath) groupName
      | .exportStarFrom requirePath =>
        smSet m (pathJoin indexDir requirePath) (basenameOf requirePath)
      | .other => m)
    []

/-- `EndPointLister.getDeployName`. -/
def eplGetDeployName (indexTsPath : String) (m : List (String × String))
    (fn filePath : String) : String :=
  if filePath = indexTsPath then fn
  else
    match smGet m (pathWithoutExt filePath) with
    | some groupName => groupName ++ "-" ++ fn
    | none => fn

/-- Claim C9 counterexample: a wildcard re-export in the entrypoint DOES
register a prefix in the `EndPointLister` deployment map — the specifier's
basename — so an endpoint in the wildcard-re-exported file resolves to
`gf-foo`, not its bare name as the claim requires. -/
theorem c9_counterexample :
    eplBuildDeploymentMap "src" [.exportStarFrom "./exports/gf"] =
      [("src/exports/gf", "gf")] ∧
    eplGetDeployName "src/index.ts"
      (eplBuildDeploymentMap "src" [.exportStarFrom "./exports/gf"])
      "foo" "src/exports/gf.ts" = "gf-foo" := by
  decide

/-- Claim C9 (amended): in the `DeployMaker` used for the impact run the
prefix map is built only from `exports.GROUP = require(path)` statements
(wildcard re-exports and other statements register no prefix) keyed by the
extension-stripped referenced path, and resolution keeps entrypoint-file
endpoints bare, names prefix-map hits `prefix-name`, and leaves every other
endpoint bare; the standalone `EndPointLister`, however, additionally
registers the specifier's basename as a prefix for every wildcard re-export
in the entrypoint. -/
theorem c9_deployment_naming_amended :
    (∀ (indexDir : String) (stmts : List EpStmt),
      dmBuildDeploymentMap indexDir stmts =
        dmBuildDeploymentMap indexDir (stmts.filter isExportsRequire)) ∧
    (∀ (indexDir : String) (stmts : List EpStmt),
      (∀ s ∈ stmts, isExportsRequire s = false) →
      dmBuildDeploymentMap indexDir stmts = []) ∧
    (∀ (idx : String) (m : List (String × String)) (ep : AnalysisSeed),
      (ep.path = idx → dmDeployNameFor idx m ep = ep.fn) ∧
      (∀ g, ep.path ≠ idx → smGet m (pathWithoutExt ep.path) = some g →
        dmDeployNameFor idx m ep = g ++ "-" ++ ep.fn) ∧
      (ep.path ≠ idx → smGet m (pathWithoutExt ep.path) = none →
        dmDeployNameFor idx m ep = ep.fn)) ∧
    (dmBuildDeploymentMap "src" [.exportsRequire "gf" "./exports/gamefunctions"] =
      [("src/exports/gamefunctions", "gf")]) ∧
    (dmDeployNameFor "src/index.ts" [("src/exports/gamefunctions", "gf")]
      ⟨"setTitle", "src/exports/gamefunctions.ts"⟩ = "gf-setTitle") ∧
    (dmBuildDeploymentMap "src" [.exportStarFrom "./exports/gf"] = []) ∧
    (∀ (indexDir spec : String),
      eplBuildDeploymentMap indexDir [.exportStarFrom spec] =
        [(pathJoin indexDir spec, basenameOf spec)]) := by
  have hfold : ∀ (indexDir : String) (stmts : List EpStmt)
      (m : List (String × String)),
      stmts.foldl
        (fun m stmt =>
          match stmt with
          | EpStmt.exportsRequire groupName requirePath =>
            let absolutePath := pathJoin indexDir requirePath
            let absolutePath :=
              if endsWithStr ".ts" absolutePath then absolutePath
              else absolutePath ++ ".ts"
            smSet m (pathWithoutExt absolutePath) groupName
          | EpStmt.exportStarFrom _ => m
          | EpStmt.other => m) m =
      (stmts.filter isExportsRequire).foldl
        (fun m stmt =>
          match stmt with
          | EpStmt.exportsRequire groupName requirePath =>
            let absolutePath := pathJoin indexDir requirePath
            let absolutePath :=
              if endsWithStr ".ts" absolutePath then absolutePath
              else absolutePath ++ ".ts"
            smSet m (pathWithoutExt absolutePath) groupName
          | EpStmt.exportStarFrom _ => m
          | EpStmt.other => m) m := by
    intro indexDir stmts
    induction stmts with
    | nil => intro m; rfl
    | cons s rest ih =>
      intro m
      cases s with
      | exportsRequire g p => simp [List.filter_cons, isExportsRequire, List.foldl_cons, ih]
      | exportStarFrom sp => simp [List.filter_cons, isExportsRequire, List.foldl_cons, ih]
      | other => simp [List.filter_cons, isExportsRequire, List.foldl_cons, ih]
  refine ⟨?_, ?_, ?_, by decide, by decide, by decide, ?_⟩
  · intro indexDir stmts
    exact hfold indexDir stmts []
  · intro indexDir stmts hnone
    have h1 := hfold indexDir stmts []
    have h2 : stmts.filter isExportsRequire = [] := by
      rw [List.filter_eq_nil_iff]
      intro s hs
      simp [hnone s hs]
    unfold dmBuildDeploymentMap
    rw [h1, h2]
    rfl
  · intro idx m ep
    refine ⟨?_, ?_, ?_⟩
    · intro h
      simp [dmDeployNameFor, h]
    · intro g hne hg
      simp [dmDeployNameFor, hne, hg]
    · intro hne hg
      simp [dmDeployNameFor, hne, hg]
  · intro indexDir spec
    rfl

/-- Witness for C9's general clauses at concrete inputs. -/
theorem c9_deployment_naming_amended_witness :
    dmBuildDeploymentMap "src" [EpStmt.exportStarFrom "./exports/gf",
      EpStmt.other] = [] ∧
    dmDeployNameFor "src/index.ts" [("src/exports/gamefunctions", "gf")]
      ⟨"checkAlerts", "src/jobs.ts"⟩ = "checkAlerts" :=
  ⟨c9_deployment_naming_amended.2.1 "src"
      [EpStmt.exportStarFrom "./exports/gf", EpStmt.other]
      (by intro s hs; fin_cases hs <;> rfl),
    ((c9_deployment_naming_amended.2.2.1 "src/index.ts"
      [("src/exports/gamefunctions", "gf")]
      ⟨"checkAlerts", "src/jobs.ts"⟩).2.2 (by decide) (by decide))⟩

end FireDiff
